import Mathlib

/-!
Verification of the mini database engine (`src/Engine.h`).

The repository ships `Engine.h`, which maintains an append-only heap of
records together with two binary-search-tree indexes: `idIndex` (unique
student id to heap position) and `lastIndex` (lowercased last name to a
vector of heap positions).  The headers `BST.h` and `Record.h` are not part
of the sources, so the tree structure and the record schema are modelled
from the specification (sections 3 and 4.1 of `spec.md`); everything in the
`Engine` namespace is translated directly from `Engine.h`.

C++ `std::string` values are modelled as `List Char` compared
lexicographically by character code, which matches byte-wise `std::string`
comparison on ASCII data.  Heap positions (`int` in C++, always heap
indices) are modelled as `Nat`; student ids as `Int`.
-/

namespace MiniDB

/-- Modelled from the spec: `BST.h` is missing from the sources.  Section 4.1
describes an unbalanced binary search tree; this is its node structure. -/
inductive Tree (K V : Type) where
  | leaf : Tree K V
  | node : Tree K V → K → V → Tree K V → Tree K V
deriving DecidableEq

namespace Tree

variable {K V : Type} [LinearOrder K]

/-- Modelled from the spec: `find(key)` walks the tree comparing against node
keys and returns the stored value, or a not-found signal. -/
def findAux : Tree K V → K → Option V
  | .leaf, _ => none
  | .node l k v r, key =>
    if key < k then l.findAux key
    else if k < key then r.findAux key
    else some v

/-- Modelled from the spec: number of key comparisons a `find` performs
(one comparison when the first test decides, two otherwise). -/
def findCost : Tree K V → K → Nat
  | .leaf, _ => 0
  | .node l k _ r, key =>
    if key < k then 1 + l.findCost key
    else if k < key then 2 + r.findCost key
    else 2

/-- Modelled from the spec: `insert(key, value)` adds a node when the key is
absent and replaces the value when the key is present; no rebalancing. -/
def insert : Tree K V → K → V → Tree K V
  | .leaf, key, val => .node .leaf key val .leaf
  | .node l k v r, key, val =>
    if key < k then .node (l.insert key val) k v r
    else if k < key then .node l k v (r.insert key val)
    else .node l key val r

/-- Modelled from the spec: comparisons performed by `insert`. -/
def insertCost : Tree K V → K → Nat
  | .leaf, _ => 0
  | .node l k _ r, key =>
    if key < k then 1 + l.insertCost key
    else if k < key then 2 + r.insertCost key
    else 2

/-- Modelled from the spec: mutation through the reference returned by
`find` — the value stored at `key` (if any) is replaced by `f` of itself.
The search comparisons were already counted by the preceding `find`. -/
def update : Tree K V → K → (V → V) → Tree K V
  | .leaf, _, _ => .leaf
  | .node l k v r, key, f =>
    if key < k then .node (l.update key f) k v r
    else if k < key then .node l k v (r.update key f)
    else .node l k (f v) r

/-- Modelled from the spec: removes and returns the minimum entry of a tree
(used as the in-order successor during deletion). -/
def delMin : Tree K V → Option (K × V × Tree K V)
  | .leaf => none
  | .node l k v r =>
    match l.delMin with
    | none => some (k, v, r)
    | some (km, vm, l') => some (km, vm, .node l' k v r)

/-- Modelled from the spec: rebuilding after the keyed node is removed.  A
node with zero or one child is spliced out directly (`l` or `r` empty); a
node with two children is replaced by its in-order successor, the minimum
of the right subtree. -/
def combine : Tree K V → Tree K V → Tree K V
  | .leaf, r => r
  | .node ll lk lv lr, r =>
    match r.delMin with
    | none => Tree.node ll lk lv lr
    | some (km, vm, r') => .node (Tree.node ll lk lv lr) km vm r'

/-- Modelled from the spec: `erase(key)` removes the node with `key` if
present, using standard BST deletion.  A no-op when the key is absent. -/
def erase : Tree K V → K → Tree K V
  | .leaf, _ => .leaf
  | .node l k v r, key =>
    if key < k then .node (l.erase key) k v r
    else if k < key then .node l k v (r.erase key)
    else combine l r

/-- Modelled from the spec: comparisons performed along the search path of
`erase`. -/
def eraseCost : Tree K V → K → Nat
  | .leaf, _ => 0
  | .node l k _ r, key =>
    if key < k then 1 + l.eraseCost key
    else if k < key then 2 + r.eraseCost key
    else 2

/-- Modelled from the spec: `rangeApply(lo, hi, visitor)` visits the entries
with keys in the inclusive range `[lo, hi]` in ascending key order, pruning
subtrees that lie entirely outside the range.  The visit order is returned
as a list of entries. -/
def rangeList : Tree K V → K → K → List (K × V)
  | .leaf, _, _ => []
  | .node l k v r, lo, hi =>
    if k < lo then r.rangeList lo hi
    else if hi < k then l.rangeList lo hi
    else l.rangeList lo hi ++ (k, v) :: r.rangeList lo hi

/-- Modelled from the spec: comparisons performed by `rangeApply`. -/
def rangeCost : Tree K V → K → K → Nat
  | .leaf, _, _ => 0
  | .node l k _ r, lo, hi =>
    if k < lo then 1 + r.rangeCost lo hi
    else if hi < k then 2 + l.rangeCost lo hi
    else 2 + l.rangeCost lo hi + r.rangeCost lo hi

/-- In-order list of entries of a tree. -/
def entries : Tree K V → List (K × V)
  | .leaf => []
  | .node l k v r => l.entries ++ (k, v) :: r.entries

/-- All keys of the tree satisfy `p`. -/
def ForallKeys (p : K → Prop) : Tree K V → Prop
  | .leaf => True
  | .node l k _ r => p k ∧ l.ForallKeys p ∧ r.ForallKeys p

/-- The binary-search-tree ordering invariant. -/
def Ordered : Tree K V → Prop
  | .leaf => True
  | .node l k _ r => l.Ordered ∧ r.Ordered ∧ l.ForallKeys (· < k) ∧ r.ForallKeys (k < ·)

end Tree

/-- Modelled from the spec: the mutable index object of `BST.h` — a root
plus the resettable comparison counter the spec attaches to each index. -/
structure BSTM (K V : Type) where
  root : Tree K V
  comparisons : Nat
deriving DecidableEq

namespace BSTM

variable {K V : Type} [LinearOrder K]

/-- Modelled from the spec: `find` returns the value (if any) and adds its
comparisons to the index's counter. -/
def find (b : BSTM K V) (key : K) : Option V × BSTM K V :=
  (b.root.findAux key, ⟨b.root, b.comparisons + b.root.findCost key⟩)

/-- Modelled from the spec: `insert`, counting its comparisons. -/
def insert (b : BSTM K V) (key : K) (val : V) : BSTM K V :=
  ⟨b.root.insert key val, b.comparisons + b.root.insertCost key⟩

/-- Modelled from the spec: `erase`, counting its comparisons. -/
def erase (b : BSTM K V) (key : K) : BSTM K V :=
  ⟨b.root.erase key, b.comparisons + b.root.eraseCost key⟩

/-- Modelled from the spec: mutation through a reference previously obtained
from `find`; performs no comparisons of its own. -/
def update (b : BSTM K V) (key : K) (f : V → V) : BSTM K V :=
  ⟨b.root.update key f, b.comparisons⟩

/-- Modelled from the spec: `resetMetrics()` zeroes the comparison counter. -/
def resetMetrics (b : BSTM K V) : BSTM K V :=
  ⟨b.root, 0⟩

/-- Modelled from the spec: `rangeApply` returns the visited entries in
order and adds the traversal's comparisons to the counter. -/
def rangeApply (b : BSTM K V) (lo hi : K) : List (K × V) × BSTM K V :=
  (b.root.rangeList lo hi, ⟨b.root, b.comparisons + b.root.rangeCost lo hi⟩)

end BSTM

/-- A C++ `std::string`, modelled as its character list. -/
abbrev Name := List Char

/-- Modelled from the spec: `Record.h` is missing from the sources.  Section
3 describes an opaque payload with at least an `id` field, a `last` field
and a `deleted` flag owned by the store; `rest` stands for the remaining
opaque fields. -/
structure Record where
  id : Int
  last : Name
  rest : Name
  deleted : Bool
deriving DecidableEq

instance : Inhabited Record := ⟨⟨0, [], [], false⟩⟩

/-- `tolower` applied to one character (C locale: only `A`–`Z` move). -/
def lowerChar (c : Char) : Char :=
  if 'A' ≤ c ∧ c ≤ 'Z' then Char.ofNat (c.toNat + 32) else c

/-- `toLower` from `Engine.h`: lowercases every character of the string. -/
def toLower (s : Name) : Name :=
  s.map lowerChar

/-- The character `'\x7b'` (`{`), used by `prefixByLast` as the exclusive
upper sentinel: the next ASCII value after `z`. -/
def sentinelChar : Char := Char.ofNat 123

/-- `heap[i]` — the heap is only ever indexed in bounds, so the default
record is never actually produced in reachable states. -/
def heapGet (h : List Record) (i : Nat) : Record :=
  h.getD i default

/-- `heap[i].deleted = true`, leaving every other field and slot alone. -/
def markDeleted : List Record → Nat → List Record
  | [], _ => []
  | r :: t, 0 => { r with deleted := true } :: t
  | r :: t, n + 1 => r :: markDeleted t n

/-- The engine state of `Engine.h`: heap plus the two indexes. -/
structure Engine where
  heap : List Record
  idIndex : BSTM Int Nat
  lastIndex : BSTM Name (List Nat)
deriving DecidableEq

namespace Engine

/-- A freshly constructed engine: empty heap, empty indexes. -/
def empty : Engine :=
  ⟨[], ⟨.leaf, 0⟩, ⟨.leaf, 0⟩⟩

/-- `Engine::insertRecord` from `Engine.h`, line by line: look up the id;
on the fresh path append and index; on the update path soft-delete the old
occupant, remove it from its bucket, append the new record, re-point the id
entry and add the new position to its bucket.  Returns the `rid` captured
from `heap.size()` before any append, together with the new state. -/
def insertRecord (e : Engine) (recIn : Record) : Nat × Engine :=
  let fr := e.idIndex.find recIn.id
  let rid := e.heap.length
  match fr.1 with
  | none =>
    let heap' := e.heap ++ [recIn]
    let idIndex' := fr.2.insert recIn.id rid
    let lastNameLower := toLower recIn.last
    let fr2 := e.lastIndex.find lastNameLower
    let lastIndex' :=
      match fr2.1 with
      | none => fr2.2.insert lastNameLower [rid]
      | some _ => fr2.2.update lastNameLower (fun xs => xs ++ [rid])
    (rid, ⟨heap', idIndex', lastIndex'⟩)
  | some oldIndex =>
    let heap1 := markDeleted e.heap oldIndex
    let oldLastNameLower := toLower (heapGet heap1 oldIndex).last
    let fr2 := e.lastIndex.find oldLastNameLower
    let lastIndex1 :=
      match fr2.1 with
      | none => fr2.2
      | some _ => fr2.2.update oldLastNameLower (fun xs => xs.filter (fun x => x ≠ oldIndex))
    let heap2 := heap1 ++ [recIn]
    let newRid := heap2.length - 1
    let idIndex' := (fr.2.erase recIn.id).insert recIn.id newRid
    let newLastNameLower := toLower recIn.last
    let fr3 := lastIndex1.find newLastNameLower
    let lastIndex2 :=
      match fr3.1 with
      | none => fr3.2.insert newLastNameLower [newRid]
      | some _ => fr3.2.update newLastNameLower (fun xs => xs ++ [newRid])
    (rid, ⟨heap2, idIndex', lastIndex2⟩)

/-- `Engine::deleteById` from `Engine.h`: absent id returns `false`;
otherwise flip the record's `deleted` flag, erase the id entry, and remove
the position from its last-name bucket. -/
def deleteById (e : Engine) (id : Int) : Bool × Engine :=
  let fr := e.idIndex.find id
  match fr.1 with
  | none => (false, ⟨e.heap, fr.2, e.lastIndex⟩)
  | some heapIndex =>
    let heap1 := markDeleted e.heap heapIndex
    let idIndex1 := fr.2.erase id
    let lastNameLower := toLower (heapGet heap1 heapIndex).last
    let fr2 := e.lastIndex.find lastNameLower
    let lastIndex1 :=
      match fr2.1 with
      | none => fr2.2
      | some _ => fr2.2.update lastNameLower (fun xs => xs.filter (fun x => x ≠ heapIndex))
    (true, ⟨heap1, idIndex1, lastIndex1⟩)

/-- `Engine::findById` from `Engine.h`: reset the primary counter, perform
the point lookup, and report the pointer (modelled as the heap position)
together with the comparison count. -/
def findById (e : Engine) (id : Int) : Option Nat × Nat × Engine :=
  let idIndex0 := e.idIndex.resetMetrics
  let fr := idIndex0.find id
  (fr.1, fr.2.comparisons, ⟨e.heap, fr.2, e.lastIndex⟩)

/-- `Engine::rangeById` from `Engine.h`: reset the primary counter, walk the
ids in `[lo, hi]`, and keep (in visit order) the positions whose record is
not deleted. -/
def rangeById (e : Engine) (lo hi : Int) : List Nat × Nat × Engine :=
  let idIndex0 := e.idIndex.resetMetrics
  let ra := idIndex0.rangeApply lo hi
  let rangeResults :=
    (ra.1.map Prod.snd).filter (fun rid => !(heapGet e.heap rid).deleted)
  (rangeResults, ra.2.comparisons, ⟨e.heap, ra.2, e.lastIndex⟩)

/-- `Engine::prefixByLast` from `Engine.h`: reset the secondary counter
(twice, as in the source), bound the search by the lowered prefix and the
lowered prefix extended with the sentinel, traverse the bucket range, and
keep every non-deleted position in bucket order. -/
def prefixByLast (e : Engine) (pre : Name) : List Nat × Nat × Engine :=
  let lastIndex0 := e.lastIndex.resetMetrics
  let lowerBound := toLower pre
  let higherBound := lowerBound ++ [sentinelChar]
  let lastIndex1 := lastIndex0.resetMetrics
  let ra := lastIndex1.rangeApply lowerBound higherBound
  let rangeResults :=
    (ra.1.map (fun kv => kv.2.filter (fun rid => !(heapGet e.heap rid).deleted))).flatten
  (rangeResults, ra.2.comparisons, ⟨e.heap, e.idIndex, ra.2⟩)

end Engine

/-- One completed public operation.  Inserted records arrive with the
`deleted` flag down, since the spec gives the store exclusive ownership of
that flag. -/
inductive Step : Engine → Engine → Prop where
  | insert (e : Engine) (r : Record) (hr : r.deleted = false) :
      Step e (e.insertRecord r).2
  | delete (e : Engine) (id : Int) : Step e (e.deleteById id).2
  | findq (e : Engine) (id : Int) : Step e (e.findById id).2.2
  | rangeq (e : Engine) (lo hi : Int) : Step e (e.rangeById lo hi).2.2
  | prefixq (e : Engine) (p : Name) : Step e (e.prefixByLast p).2.2

/-- Zero or more completed public operations. -/
def Reaches : Engine → Engine → Prop :=
  Relation.ReflTransGen Step

/-- States producible from a fresh engine by public operations. -/
def Reachable (e : Engine) : Prop :=
  Reaches Engine.empty e

/-! ## Tree lemmas -/

namespace Tree

variable {K V : Type} [LinearOrder K]
variable {t l r : Tree K V} {k key : K} {v val : V} {p q : K → Prop}

theorem forallKeys_iff {t : Tree K V} :
    t.ForallKeys p ↔ ∀ kv ∈ t.entries, p kv.1 := by
  induction t with
  | leaf => simp [ForallKeys, entries]
  | node l k v r ihl ihr =>
    simp only [ForallKeys, entries, List.mem_append, List.mem_cons, ihl, ihr]
    constructor
    · rintro ⟨hk, hl, hr⟩ kv (h | h | h)
      · exact hl kv h
      · simpa [h] using hk
      · exact hr kv h
    · intro h
      exact ⟨h (k, v) (Or.inr (Or.inl rfl)),
        fun kv hkv => h kv (Or.inl hkv),
        fun kv hkv => h kv (Or.inr (Or.inr hkv))⟩

theorem ForallKeys.imp (h : ∀ x, p x → q x) :
    ∀ {t : Tree K V}, t.ForallKeys p → t.ForallKeys q := by
  intro t
  simp only [forallKeys_iff]
  exact fun ht kv hkv => h _ (ht kv hkv)

theorem Ordered.entries_pairwise :
    ∀ {t : Tree K V}, t.Ordered → t.entries.Pairwise (fun a b => a.1 < b.1) := by
  intro t
  induction t with
  | leaf => simp [entries]
  | node l k v r ihl ihr =>
    rintro ⟨hl, hr, hlk, hrk⟩
    rw [forallKeys_iff] at hlk hrk
    simp only [entries, List.pairwise_append, List.pairwise_cons]
    refine ⟨ihl hl, ⟨fun kv hkv => hrk kv hkv, ihr hr⟩, ?_⟩
    intro a ha b hb
    rcases List.mem_cons.1 hb with rfl | hb
    · exact hlk a ha
    · exact lt_trans (hlk a ha) (hrk b hb)

theorem Ordered.entries_nodup (h : t.Ordered) : t.entries.Nodup :=
  h.entries_pairwise.imp fun hab => by
    intro h'; subst h'; exact lt_irrefl _ hab

theorem findAux_eq_some_iff :
    ∀ {t : Tree K V}, t.Ordered → (t.findAux key = some v ↔ (key, v) ∈ t.entries) := by
  intro t
  induction t with
  | leaf => intro _; simp [findAux, entries]
  | node l k v' r ihl ihr =>
    rintro ⟨hl, hr, hlk, hrk⟩
    rw [forallKeys_iff] at hlk hrk
    rcases lt_trichotomy key k with hlt | heq | hgt
    · rw [findAux, if_pos hlt]
      simp only [entries, List.mem_append, List.mem_cons]
      rw [ihl hl]
      constructor
      · exact fun hm => Or.inl hm
      · rintro (hm | hm | hm)
        · exact hm
        · exact absurd (Prod.ext_iff.1 hm).1 (ne_of_lt hlt)
        · exact absurd (hrk _ hm) (asymm hlt)
    · subst heq
      rw [findAux, if_neg (lt_irrefl key), if_neg (lt_irrefl key)]
      simp only [entries, List.mem_append, List.mem_cons]
      constructor
      · intro h'
        have hv := Option.some.inj h'
        exact Or.inr (Or.inl (by rw [hv]))
      · rintro (hm | hm | hm)
        · exact absurd (hlk _ hm) (lt_irrefl key)
        · have hv : v = v' := (Prod.ext_iff.1 hm).2
          rw [hv]
        · exact absurd (hrk _ hm) (lt_irrefl key)
    · rw [findAux, if_neg (asymm hgt), if_pos hgt]
      simp only [entries, List.mem_append, List.mem_cons]
      rw [ihr hr]
      constructor
      · exact fun hm => Or.inr (Or.inr hm)
      · rintro (hm | hm | hm)
        · exact absurd (hlk _ hm) (asymm hgt)
        · exact absurd (Prod.ext_iff.1 hm).1 (ne_of_gt hgt)
        · exact hm

theorem findAux_eq_none_iff (h : t.Ordered) :
    t.findAux key = none ↔ ∀ kv ∈ t.entries, kv.1 ≠ key := by
  constructor
  · intro hn kv hkv hkey
    obtain ⟨k', v'⟩ := kv
    cases hkey
    rw [← findAux_eq_some_iff h] at hkv
    rw [hn] at hkv
    exact Option.noConfusion hkv
  · intro hall
    cases hfind : t.findAux key with
    | none => rfl
    | some v' =>
      rw [findAux_eq_some_iff h] at hfind
      exact absurd rfl (hall _ hfind)

theorem mem_keys_of_findAux (h : t.Ordered) (hf : t.findAux key = some v) :
    (key, v) ∈ t.entries :=
  (findAux_eq_some_iff h).1 hf

/-! ### insert -/

theorem forallKeys_insert (ht : t.ForallKeys p) (hk : p key) :
    (t.insert key val).ForallKeys p := by
  induction t with
  | leaf => simpa [Tree.insert, ForallKeys] using hk
  | node l k v r ihl ihr =>
    obtain ⟨hk', hl, hr⟩ := ht
    rw [Tree.insert]
    split
    · exact ⟨hk', ihl hl, hr⟩
    · split
      · exact ⟨hk', hl, ihr hr⟩
      · exact ⟨hk, hl, hr⟩

theorem ordered_insert (h : t.Ordered) : (t.insert key val).Ordered := by
  induction t with
  | leaf => simp [Tree.insert, Ordered, ForallKeys]
  | node l k v r ihl ihr =>
    obtain ⟨hl, hr, hlk, hrk⟩ := h
    rw [Tree.insert]
    split
    · exact ⟨ihl hl, hr, forallKeys_insert hlk (by assumption), hrk⟩
    · split
      · exact ⟨hl, ihr hr, hlk, forallKeys_insert hrk (by assumption)⟩
      · have : key = k := le_antisymm (not_lt.1 (by assumption)) (not_lt.1 (by assumption))
        subst this
        exact ⟨hl, hr, hlk, hrk⟩

theorem findAux_insert (t : Tree K V) (key : K) (val : V) (key' : K) :
    (t.insert key val).findAux key' =
      if key' = key then some val else t.findAux key' := by
  induction t with
  | leaf =>
    rcases lt_trichotomy key' key with h | h | h
    · simp [Tree.insert, findAux, h, ne_of_lt h]
    · simp [Tree.insert, findAux, h]
    · simp [Tree.insert, findAux, asymm h, h, ne_of_gt h]
  | node l k v r ihl ihr =>
    rcases lt_trichotomy key k with h | h | h
    · rcases lt_trichotomy key' k with h' | h' | h'
      · simp [Tree.insert, findAux, h, h', ihl]
      · subst h'
        simp [Tree.insert, findAux, h, lt_irrefl, ne_of_gt h]
      · simp [Tree.insert, findAux, h, h', asymm h', ne_of_gt (lt_trans h h')]
    · subst h
      rcases lt_trichotomy key' key with h' | h' | h'
      · simp [Tree.insert, findAux, lt_irrefl, h', ne_of_lt h']
      · subst h'
        simp [Tree.insert, findAux, lt_irrefl]
      · simp [Tree.insert, findAux, lt_irrefl, h', asymm h', ne_of_gt h']
    · rcases lt_trichotomy key' k with h' | h' | h'
      · simp [Tree.insert, findAux, h, asymm h, h', ne_of_lt (lt_trans h' h)]
      · subst h'
        simp [Tree.insert, findAux, h, asymm h, lt_irrefl, ne_of_lt h]
      · simp [Tree.insert, findAux, h, asymm h, h', asymm h', ihr]

/-! ### update -/

theorem forallKeys_update {f : V → V} (ht : t.ForallKeys p) :
    (t.update key f).ForallKeys p := by
  induction t with
  | leaf => simpa [Tree.update] using ht
  | node l k v r ihl ihr =>
    obtain ⟨hk, hl, hr⟩ := ht
    rw [Tree.update]
    split
    · exact ⟨hk, ihl hl, hr⟩
    · split
      · exact ⟨hk, hl, ihr hr⟩
      · exact ⟨hk, hl, hr⟩

theorem ordered_update {f : V → V} (h : t.Ordered) : (t.update key f).Ordered := by
  induction t with
  | leaf => simpa [Tree.update] using h
  | node l k v r ihl ihr =>
    obtain ⟨hl, hr, hlk, hrk⟩ := h
    rw [Tree.update]
    split
    · exact ⟨ihl hl, hr, forallKeys_update hlk, hrk⟩
    · split
      · exact ⟨hl, ihr hr, hlk, forallKeys_update hrk⟩
      · exact ⟨hl, hr, hlk, hrk⟩

theorem findAux_update (t : Tree K V) (key : K) (f : V → V) (key' : K) :
    (t.update key f).findAux key' =
      if key' = key then (t.findAux key).map f else t.findAux key' := by
  induction t with
  | leaf => simp [Tree.update, findAux]
  | node l k v r ihl ihr =>
    rcases lt_trichotomy key k with h | h | h
    · rcases lt_trichotomy key' k with h' | h' | h'
      · simp [Tree.update, findAux, h, h', ihl]
      · subst h'
        simp [Tree.update, findAux, h, lt_irrefl, ne_of_gt h]
      · simp [Tree.update, findAux, h, h', asymm h', ne_of_gt (lt_trans h h')]
    · subst h
      rcases lt_trichotomy key' key with h' | h' | h'
      · simp [Tree.update, findAux, lt_irrefl, h', ne_of_lt h']
      · subst h'
        simp [Tree.update, findAux, lt_irrefl]
      · simp [Tree.update, findAux, lt_irrefl, h', asymm h', ne_of_gt h']
    · rcases lt_trichotomy key' k with h' | h' | h'
      · simp [Tree.update, findAux, h, asymm h, h', ne_of_lt (lt_trans h' h)]
      · subst h'
        simp [Tree.update, findAux, h, asymm h, lt_irrefl, ne_of_lt h]
      · simp [Tree.update, findAux, h, asymm h, h', asymm h', ihr]

/-! ### delMin and erase -/

theorem eq_leaf_of_delMin_eq_none :
    ∀ {t : Tree K V}, t.delMin = none → t = .leaf := by
  intro t
  cases t with
  | leaf => intro _; rfl
  | node l k v r =>
    intro h
    rw [delMin] at h
    cases hl : l.delMin with
    | none => rw [hl] at h; exact Option.noConfusion h
    | some x => rw [hl] at h; obtain ⟨km, vm, l'⟩ := x; exact Option.noConfusion h

theorem delMin_entries :
    ∀ {t : Tree K V} {km : K} {vm : V} {t' : Tree K V},
      t.delMin = some (km, vm, t') → t.entries = (km, vm) :: t'.entries := by
  intro t
  induction t with
  | leaf => intro _ _ _ h; exact Option.noConfusion h
  | node l k v r ihl ihr =>
    intro km vm t' h
    rw [delMin] at h
    cases hl : l.delMin with
    | none =>
      rw [hl] at h
      obtain ⟨rfl, rfl, rfl⟩ : k = km ∧ v = vm ∧ r = t' := by
        have := Option.some.inj h
        exact ⟨congrArg Prod.fst this, congrArg (fun x => x.2.1) this,
          congrArg (fun x => x.2.2) this⟩
      rw [eq_leaf_of_delMin_eq_none hl]
      simp [entries]
    | some x =>
      obtain ⟨km', vm', l'⟩ := x
      rw [hl] at h
      obtain ⟨rfl, rfl, rfl⟩ : km' = km ∧ vm' = vm ∧ Tree.node l' k v r = t' := by
        have := Option.some.inj h
        exact ⟨congrArg Prod.fst this, congrArg (fun x => x.2.1) this,
          congrArg (fun x => x.2.2) this⟩
      have hle := ihl hl
      simp [entries, hle]

theorem forallKeys_delMin {km : K} {vm : V} {t' : Tree K V}
    (ht : t.ForallKeys p) (h : t.delMin = some (km, vm, t')) :
    p km ∧ t'.ForallKeys p := by
  rw [forallKeys_iff] at ht
  rw [delMin_entries h] at ht
  refine ⟨ht (km, vm) (List.mem_cons_self _ _), ?_⟩
  rw [forallKeys_iff]
  exact fun kv hkv => ht kv (List.mem_cons_of_mem _ hkv)

theorem ordered_delMin :
    ∀ {t : Tree K V} {km : K} {vm : V} {t' : Tree K V},
      t.Ordered → t.delMin = some (km, vm, t') →
      t'.Ordered ∧ t'.ForallKeys (km < ·) := by
  intro t
  induction t with
  | leaf => intro _ _ _ _ h; exact Option.noConfusion h
  | node l k v r ihl ihr =>
    rintro km vm t' ⟨hl, hr, hlk, hrk⟩ h
    rw [Tree.delMin] at h
    cases hldm : l.delMin with
    | none =>
      rw [hldm] at h
      obtain ⟨rfl, rfl, rfl⟩ : k = km ∧ v = vm ∧ r = t' := by
        have := Option.some.inj h
        exact ⟨congrArg Prod.fst this, congrArg (fun x => x.2.1) this,
          congrArg (fun x => x.2.2) this⟩
      exact ⟨hr, hrk⟩
    | some x =>
      obtain ⟨km', vm', l'⟩ := x
      rw [hldm] at h
      obtain ⟨rfl, rfl, rfl⟩ : km' = km ∧ vm' = vm ∧ Tree.node l' k v r = t' := by
        have := Option.some.inj h
        exact ⟨congrArg Prod.fst this, congrArg (fun x => x.2.1) this,
          congrArg (fun x => x.2.2) this⟩
      obtain ⟨hIol', hImkl'⟩ := ihl hl hldm
      obtain ⟨hkmk, hl'k⟩ := forallKeys_delMin hlk hldm
      refine ⟨⟨hIol', hr, hl'k, hrk⟩, hkmk, hImkl', hrk.imp fun x hx => lt_trans hkmk hx⟩

theorem combine_entries {l r : Tree K V} :
    (combine l r).entries = l.entries ++ r.entries := by
  cases l with
  | leaf => simp [combine, entries]
  | node ll lk lv lr =>
    rw [combine]
    cases hdm : r.delMin with
    | none =>
      rw [eq_leaf_of_delMin_eq_none hdm]
      simp [entries]
    | some x =>
      obtain ⟨km, vm, r'⟩ := x
      rw [entries, delMin_entries hdm]

theorem forallKeys_combine {l r : Tree K V}
    (hl : l.ForallKeys p) (hr : r.ForallKeys p) :
    (Tree.combine l r).ForallKeys p := by
  rw [forallKeys_iff] at hl hr ⊢
  rw [combine_entries]
  intro kv hkv
  rcases List.mem_append.1 hkv with h | h
  · exact hl kv h
  · exact hr kv h

theorem ordered_combine {l r : Tree K V} {k : K}
    (hl : l.Ordered) (hr : r.Ordered)
    (hlk : l.ForallKeys (· < k)) (hrk : r.ForallKeys (k < ·)) :
    (Tree.combine l r).Ordered := by
  cases l with
  | leaf => exact hr
  | node ll lk lv lr =>
    rw [Tree.combine]
    cases hdm : r.delMin with
    | none => exact hl
    | some x =>
      obtain ⟨km, vm, r'⟩ := x
      obtain ⟨hor', hkmr'⟩ := ordered_delMin hr hdm
      obtain ⟨hkkm, -⟩ := forallKeys_delMin hrk hdm
      exact ⟨hl, hor', hlk.imp fun x hx => lt_trans hx hkkm, hkmr'⟩

theorem forallKeys_erase (ht : t.ForallKeys p) : (t.erase key).ForallKeys p := by
  induction t with
  | leaf => simpa [Tree.erase] using ht
  | node l k v r ihl ihr =>
    obtain ⟨hk, hl, hr⟩ := ht
    rw [Tree.erase]
    split
    · exact ⟨hk, ihl hl, hr⟩
    · split
      · exact ⟨hk, hl, ihr hr⟩
      · exact forallKeys_combine hl hr

theorem ordered_erase : ∀ {t : Tree K V}, t.Ordered → (t.erase key).Ordered := by
  intro t
  induction t with
  | leaf => intro h; simpa [Tree.erase] using h
  | node l k v r ihl ihr =>
    rintro ⟨hl, hr, hlk, hrk⟩
    rw [Tree.erase]
    split
    · exact ⟨ihl hl, hr, forallKeys_erase hlk, hrk⟩
    · split
      · exact ⟨hl, ihr hr, hlk, forallKeys_erase hrk⟩
      · exact ordered_combine hl hr hlk hrk

theorem filter_ne_key_of_forall {key : K} {xs : List (K × V)}
    (h : ∀ kv ∈ xs, kv.1 ≠ key) :
    xs.filter (fun kv => decide (kv.1 ≠ key)) = xs :=
  List.filter_eq_self.2 fun kv hkv => by simpa using h kv hkv

theorem entries_erase :
    ∀ {t : Tree K V}, t.Ordered →
      (t.erase key).entries = t.entries.filter (fun kv => decide (kv.1 ≠ key)) := by
  intro t
  induction t with
  | leaf => intro _; simp [Tree.erase, entries]
  | node l k v r ihl ihr =>
    rintro ⟨hl, hr, hlk, hrk⟩
    rw [forallKeys_iff] at hlk hrk
    rcases lt_trichotomy key k with h | h | h
    · rw [Tree.erase, if_pos h, entries, entries, ihl hl, List.filter_append,
        List.filter_cons]
      rw [if_pos (by simpa using ne_of_gt h)]
      rw [filter_ne_key_of_forall fun kv hkv => ne_of_gt (lt_trans h (hrk kv hkv))]
    · subst h
      rw [Tree.erase, if_neg (lt_irrefl key), if_neg (lt_irrefl key), entries,
        List.filter_append, List.filter_cons]
      rw [if_neg (by simp)]
      rw [filter_ne_key_of_forall fun kv hkv => ne_of_lt (hlk kv hkv),
        filter_ne_key_of_forall fun kv hkv => ne_of_gt (hrk kv hkv)]
      exact combine_entries
    · rw [Tree.erase, if_neg (asymm h), if_pos h, entries, entries, ihr hr,
        List.filter_append, List.filter_cons]
      rw [if_pos (by simpa using ne_of_lt h)]
      rw [filter_ne_key_of_forall fun kv hkv => ne_of_lt (lt_trans (hlk kv hkv) h)]

theorem findAux_erase {t : Tree K V} {key key' : K} (h : t.Ordered) :
    (t.erase key).findAux key' = if key' = key then none else t.findAux key' := by
  by_cases hk : key' = key
  · rw [if_pos hk]
    cases hf : (t.erase key).findAux key' with
    | none => rfl
    | some v' =>
      have hm := (findAux_eq_some_iff (ordered_erase h)).1 hf
      rw [entries_erase h] at hm
      have := List.of_mem_filter hm
      simp [hk] at this
  · rw [if_neg hk]
    cases hf : t.findAux key' with
    | none =>
      cases hf' : (t.erase key).findAux key' with
      | none => rfl
      | some v' =>
        have hm := (findAux_eq_some_iff (ordered_erase h)).1 hf'
        rw [entries_erase h] at hm
        have := List.mem_of_mem_filter hm
        rw [← findAux_eq_some_iff h] at this
        rw [hf] at this
        exact Option.noConfusion this
    | some v' =>
      have hm := (findAux_eq_some_iff h).1 hf
      have : (key', v') ∈ (t.erase key).entries := by
        rw [entries_erase h]
        exact List.mem_filter.2 ⟨hm, by simpa using hk⟩
      exact (findAux_eq_some_iff (ordered_erase h)).2 this

/-! ### rangeList -/

theorem rangeList_eq_filter {lo hi : K} :
    ∀ {t : Tree K V}, t.Ordered →
      t.rangeList lo hi =
        t.entries.filter (fun kv => decide (lo ≤ kv.1) && decide (kv.1 ≤ hi)) := by
  intro t
  induction t with
  | leaf => intro _; simp [rangeList, entries]
  | node l k v r ihl ihr =>
    rintro ⟨hl, hr, hlk, hrk⟩
    rw [forallKeys_iff] at hlk hrk
    rcases lt_trichotomy k lo with h | h | h
    · rw [rangeList, if_pos h, entries, List.filter_append, List.filter_cons]
      rw [if_neg (by simp [not_le.2 h])]
      rw [List.filter_eq_nil_iff.2 fun kv hkv => by
        simp [not_le.2 (lt_trans (hlk kv hkv) h)]]
      rw [ihr hr, List.nil_append]
    · rcases lt_trichotomy hi k with hhi | hhi | hhi
      · rw [rangeList, if_neg (by rw [h]; exact lt_irrefl lo), if_pos hhi, entries,
          List.filter_append, List.filter_cons]
        rw [if_neg (by simp [not_le.2 hhi])]
        rw [List.filter_eq_nil_iff.2 fun kv (hkv : kv ∈ r.entries) => by
          simp [not_le.2 (lt_trans hhi (hrk kv hkv))]]
        rw [ihl hl, List.append_nil]
      · rw [rangeList, if_neg (by rw [h]; exact lt_irrefl lo), if_neg (by rw [hhi]; exact lt_irrefl k),
          entries, List.filter_append, List.filter_cons]
        rw [if_pos (by simp [h.symm.le, hhi.ge])]
        rw [ihl hl, ihr hr]
      · rw [rangeList, if_neg (by rw [h]; exact lt_irrefl lo), if_neg (asymm hhi),
          entries, List.filter_append, List.filter_cons]
        rw [if_pos (by simp [h.symm.le, hhi.le])]
        rw [ihl hl, ihr hr]
    · rw [rangeList, if_neg (asymm h)]
      by_cases hhi : hi < k
      · rw [if_pos hhi, entries, List.filter_append, List.filter_cons]
        rw [if_neg (by simp [not_le.2 hhi])]
        rw [List.filter_eq_nil_iff.2 fun kv (hkv : kv ∈ r.entries) => by
          simp [not_le.2 (lt_trans hhi (hrk kv hkv))]]
        rw [ihl hl, List.append_nil]
      · rw [if_neg hhi, entries, List.filter_append, List.filter_cons]
        rw [if_pos (by simp [le_of_lt h, not_lt.1 hhi])]
        rw [ihl hl, ihr hr]

theorem mem_rangeList_iff {lo hi : K} {kv : K × V} (h : t.Ordered) :
    kv ∈ t.rangeList lo hi ↔ kv ∈ t.entries ∧ lo ≤ kv.1 ∧ kv.1 ≤ hi := by
  rw [rangeList_eq_filter h, List.mem_filter]
  simp

theorem findAux_erase_insert {t : Tree K V} {k i : K} {v : V} (h : t.Ordered) :
    ((t.erase k).insert k v).findAux i = if i = k then some v else t.findAux i := by
  rw [findAux_insert]
  by_cases hik : i = k
  · rw [if_pos hik, if_pos hik]
  · rw [if_neg hik, if_neg hik, findAux_erase h, if_neg hik]

end Tree

/-! ## Heap lemmas -/

theorem markDeleted_length (h : List Record) (i : Nat) :
    (markDeleted h i).length = h.length := by
  induction h generalizing i with
  | nil => rfl
  | cons r t ih =>
    cases i with
    | zero => rfl
    | succ n => simpa [markDeleted] using ih n

theorem heapGet_markDeleted_ne (h : List Record) {i j : Nat} (hij : j ≠ i) :
    heapGet (markDeleted h i) j = heapGet h j := by
  induction h generalizing i j with
  | nil => rfl
  | cons r t ih =>
    cases i with
    | zero =>
      cases j with
      | zero => exact absurd rfl hij
      | succ m => rfl
    | succ n =>
      cases j with
      | zero => rfl
      | succ m =>
        have : m ≠ n := fun he => hij (by rw [he])
        simpa [markDeleted, heapGet, List.getD] using ih this

theorem heapGet_markDeleted_self {h : List Record} {i : Nat} (hi : i < h.length) :
    heapGet (markDeleted h i) i = { heapGet h i with deleted := true } := by
  induction h generalizing i with
  | nil => simp at hi
  | cons r t ih =>
    cases i with
    | zero => rfl
    | succ n =>
      have : n < t.length := by simpa using hi
      simpa [markDeleted, heapGet, List.getD] using ih this

theorem heapGet_markDeleted_last (h : List Record) (i j : Nat) :
    (heapGet (markDeleted h i) j).last = (heapGet h j).last := by
  by_cases hij : j = i
  · subst hij
    by_cases hj : j < h.length
    · rw [heapGet_markDeleted_self hj]
    · unfold heapGet
      rw [List.getD_eq_default, List.getD_eq_default]
      · exact not_lt.1 hj
      · rw [markDeleted_length]; exact not_lt.1 hj
  · rw [heapGet_markDeleted_ne h hij]

theorem heapGet_markDeleted_deleted (h : List Record) (i j : Nat)
    (hd : (heapGet h j).deleted = true) :
    (heapGet (markDeleted h i) j).deleted = true := by
  by_cases hij : j = i
  · subst hij
    by_cases hj : j < h.length
    · rw [heapGet_markDeleted_self hj]
    · unfold heapGet
      rw [List.getD_eq_default]
      · unfold heapGet at hd
        rw [List.getD_eq_default] at hd
        · exact hd
        · exact not_lt.1 hj
      · rw [markDeleted_length]; exact not_lt.1 hj
  · rw [heapGet_markDeleted_ne h hij]; exact hd

theorem heapGet_snoc_self (h : List Record) (r : Record) :
    heapGet (h ++ [r]) h.length = r := by
  unfold heapGet
  rw [List.getD_append_right _ _ _ _ (le_refl _)]
  simp

theorem heapGet_snoc_lt {h : List Record} {r : Record} {i : Nat} (hi : i < h.length) :
    heapGet (h ++ [r]) i = heapGet h i := by
  unfold heapGet
  rw [List.getD_append _ _ _ _ hi]

theorem heapGet_snoc_deleted (h : List Record) (r : Record) (i : Nat)
    (hd : (heapGet h i).deleted = true) :
    (heapGet (h ++ [r]) i).deleted = true := by
  by_cases hi : i < h.length
  · rw [heapGet_snoc_lt hi]; exact hd
  · unfold heapGet at hd
    rw [List.getD_eq_default _ _ (not_lt.1 hi)] at hd
    exact absurd hd (by decide)

/-! ## The engine invariant -/

/-- The consistency invariant tying the heap and the two indexes together. -/
structure Inv (e : Engine) : Prop where
  idOrd : e.idIndex.root.Ordered
  lastOrd : e.lastIndex.root.Ordered
  idValid : ∀ i rid, e.idIndex.root.findAux i = some rid →
    rid < e.heap.length ∧ (heapGet e.heap rid).id = i ∧
      (heapGet e.heap rid).deleted = false
  idComplete : ∀ rid, rid < e.heap.length → (heapGet e.heap rid).deleted = false →
    e.idIndex.root.findAux (heapGet e.heap rid).id = some rid
  bucketValid : ∀ s l, e.lastIndex.root.findAux s = some l →
    l.Nodup ∧ ∀ rid ∈ l, rid < e.heap.length ∧
      (heapGet e.heap rid).deleted = false ∧
      toLower (heapGet e.heap rid).last = s
  bucketComplete : ∀ rid, rid < e.heap.length → (heapGet e.heap rid).deleted = false →
    ∃ l, e.lastIndex.root.findAux (toLower (heapGet e.heap rid).last) = some l ∧ rid ∈ l
  bucketKeys : ∀ s l, e.lastIndex.root.findAux s = some l →
    ∃ rid, rid < e.heap.length ∧ s = toLower (heapGet e.heap rid).last

theorem inv_empty : Inv Engine.empty := by
  refine ⟨trivial, trivial, ?_, ?_, ?_, ?_, ?_⟩
  · intro i rid h; exact Option.noConfusion h
  · intro rid h; simp [Engine.empty] at h
  · intro s l h; exact Option.noConfusion h
  · intro rid h; simp [Engine.empty] at h
  · intro s l h; exact Option.noConfusion h

theorem inv_of_eq {e e' : Engine} (hI : Inv e) (hh : e'.heap = e.heap)
    (hid : e'.idIndex.root = e.idIndex.root)
    (hlast : e'.lastIndex.root = e.lastIndex.root) : Inv e' := by
  refine ⟨?_, ?_, ?_, ?_, ?_, ?_, ?_⟩ <;> simp only [hh, hid, hlast] <;>
    first
      | exact hI.idOrd
      | exact hI.lastOrd
      | exact hI.idValid
      | exact hI.idComplete
      | exact hI.bucketValid
      | exact hI.bucketComplete
      | exact hI.bucketKeys

/-- The state reached by the fresh-insert path of `insertRecord` when the
last-name bucket does not exist yet satisfies the invariant. -/
theorem inv_fresh_new {e : Engine} {recIn : Record} (hI : Inv e)
    (hr : recIn.deleted = false)
    (hfind : e.idIndex.root.findAux recIn.id = none)
    (hb : e.lastIndex.root.findAux (toLower recIn.last) = none) :
    Inv ⟨e.heap ++ [recIn],
      ⟨e.idIndex.root.insert recIn.id e.heap.length, 0⟩,
      ⟨e.lastIndex.root.insert (toLower recIn.last) [e.heap.length], 0⟩⟩ := by
  refine ⟨Tree.ordered_insert hI.idOrd, Tree.ordered_insert hI.lastOrd, ?_, ?_, ?_, ?_, ?_⟩
  · intro i rid h
    rw [Tree.findAux_insert] at h
    by_cases hik : i = recIn.id
    · rw [if_pos hik] at h
      obtain rfl : e.heap.length = rid := Option.some.inj h
      refine ⟨by simp, ?_, ?_⟩
      · rw [heapGet_snoc_self, hik]
      · rw [heapGet_snoc_self]; exact hr
    · rw [if_neg hik] at h
      obtain ⟨h1, h2, h3⟩ := hI.idValid i rid h
      exact ⟨by simpa using Nat.lt_succ_of_lt h1,
        by rw [heapGet_snoc_lt h1]; exact h2,
        by rw [heapGet_snoc_lt h1]; exact h3⟩
  · intro rid hr1 hr2
    rw [Tree.findAux_insert]
    rcases Nat.lt_succ_iff_lt_or_eq.1 (by simpa using hr1) with hlt | heq
    · rw [heapGet_snoc_lt hlt] at hr2 ⊢
      have hne : (heapGet e.heap rid).id ≠ recIn.id := by
        intro hcontra
        have := hI.idComplete rid hlt hr2
        rw [hcontra, hfind] at this
        exact Option.noConfusion this
      rw [if_neg hne]
      exact hI.idComplete rid hlt hr2
    · subst heq
      rw [heapGet_snoc_self, if_pos rfl]
  · intro s l h
    rw [Tree.findAux_insert] at h
    by_cases hsk : s = toLower recIn.last
    · rw [if_pos hsk] at h
      obtain rfl : [e.heap.length] = l := Option.some.inj h
      refine ⟨by simp, ?_⟩
      intro rid hrid
      obtain rfl : rid = e.heap.length := by simpa using hrid
      exact ⟨by simp, by rw [heapGet_snoc_self]; exact hr,
        by rw [heapGet_snoc_self, hsk]⟩
    · rw [if_neg hsk] at h
      obtain ⟨hnd, hmem⟩ := hI.bucketValid s l h
      refine ⟨hnd, ?_⟩
      intro rid hrid
      obtain ⟨h1, h2, h3⟩ := hmem rid hrid
      exact ⟨by simpa using Nat.lt_succ_of_lt h1,
        by rw [heapGet_snoc_lt h1]; exact h2,
        by rw [heapGet_snoc_lt h1]; exact h3⟩
  · intro rid hr1 hr2
    rcases Nat.lt_succ_iff_lt_or_eq.1 (by simpa using hr1) with hlt | heq
    · rw [heapGet_snoc_lt hlt] at hr2 ⊢
      obtain ⟨l, hfa, hmem⟩ := hI.bucketComplete rid hlt hr2
      have hne : toLower (heapGet e.heap rid).last ≠ toLower recIn.last := by
        intro hcontra
        rw [hcontra, hb] at hfa
        exact Option.noConfusion hfa
      refine ⟨l, ?_, hmem⟩
      rw [Tree.findAux_insert, if_neg hne]
      exact hfa
    · subst heq
      refine ⟨[e.heap.length], ?_, by simp⟩
      rw [heapGet_snoc_self, Tree.findAux_insert, if_pos rfl]
  · intro s l h
    rw [Tree.findAux_insert] at h
    by_cases hsk : s = toLower recIn.last
    · exact ⟨e.heap.length, by simp, by rw [heapGet_snoc_self, hsk]⟩
    · rw [if_neg hsk] at h
      obtain ⟨rid, h1, h2⟩ := hI.bucketKeys s l h
      exact ⟨rid, by simpa using Nat.lt_succ_of_lt h1,
        by rw [heapGet_snoc_lt h1]; exact h2⟩

/-- The state reached by the fresh-insert path of `insertRecord` when the
last-name bucket already exists satisfies the invariant. -/
theorem inv_fresh_old {e : Engine} {recIn : Record} {l0 : List Nat}
    (hI : Inv e) (hr : recIn.deleted = false)
    (hfind : e.idIndex.root.findAux recIn.id = none)
    (hb : e.lastIndex.root.findAux (toLower recIn.last) = some l0) :
    Inv ⟨e.heap ++ [recIn],
      ⟨e.idIndex.root.insert recIn.id e.heap.length, 0⟩,
      ⟨e.lastIndex.root.update (toLower recIn.last) (fun xs => xs ++ [e.heap.length]),
        0⟩⟩ := by
  obtain ⟨hnd0, hmem0⟩ := hI.bucketValid _ _ hb
  refine ⟨Tree.ordered_insert hI.idOrd, Tree.ordered_update hI.lastOrd, ?_, ?_, ?_, ?_, ?_⟩
  · intro i rid h
    rw [Tree.findAux_insert] at h
    by_cases hik : i = recIn.id
    · rw [if_pos hik] at h
      obtain rfl : e.heap.length = rid := Option.some.inj h
      refine ⟨by simp, ?_, ?_⟩
      · rw [heapGet_snoc_self, hik]
      · rw [heapGet_snoc_self]; exact hr
    · rw [if_neg hik] at h
      obtain ⟨h1, h2, h3⟩ := hI.idValid i rid h
      exact ⟨by simpa using Nat.lt_succ_of_lt h1,
        by rw [heapGet_snoc_lt h1]; exact h2,
        by rw [heapGet_snoc_lt h1]; exact h3⟩
  · intro rid hr1 hr2
    rw [Tree.findAux_insert]
    rcases Nat.lt_succ_iff_lt_or_eq.1 (by simpa using hr1) with hlt | heq
    · rw [heapGet_snoc_lt hlt] at hr2 ⊢
      have hne : (heapGet e.heap rid).id ≠ recIn.id := by
        intro hcontra
        have := hI.idComplete rid hlt hr2
        rw [hcontra, hfind] at this
        exact Option.noConfusion this
      rw [if_neg hne]
      exact hI.idComplete rid hlt hr2
    · subst heq
      rw [heapGet_snoc_self, if_pos rfl]
  · intro s l h
    rw [Tree.findAux_update] at h
    by_cases hsk : s = toLower recIn.last
    · rw [if_pos hsk, hb] at h
      obtain rfl : l0 ++ [e.heap.length] = l := Option.some.inj h
      have hlen0 : e.heap.length ∉ l0 := fun hmem =>
        absurd (hmem0 _ hmem).1 (lt_irrefl _)
      refine ⟨by simp [List.nodup_append, hnd0, List.disjoint_singleton, hlen0], ?_⟩
      intro rid hrid
      rcases List.mem_append.1 hrid with hrid | hrid
      · obtain ⟨h1, h2, h3⟩ := hmem0 rid hrid
        exact ⟨by simpa using Nat.lt_succ_of_lt h1,
          by rw [heapGet_snoc_lt h1]; exact h2,
          by rw [heapGet_snoc_lt h1, h3, hsk]⟩
      · obtain rfl : rid = e.heap.length := by simpa using hrid
        exact ⟨by simp, by rw [heapGet_snoc_self]; exact hr,
          by rw [heapGet_snoc_self, hsk]⟩
    · rw [if_neg hsk] at h
      obtain ⟨hnd, hmem⟩ := hI.bucketValid s l h
      refine ⟨hnd, ?_⟩
      intro rid hrid
      obtain ⟨h1, h2, h3⟩ := hmem rid hrid
      exact ⟨by simpa using Nat.lt_succ_of_lt h1,
        by rw [heapGet_snoc_lt h1]; exact h2,
        by rw [heapGet_snoc_lt h1]; exact h3⟩
  · intro rid hr1 hr2
    rcases Nat.lt_succ_iff_lt_or_eq.1 (by simpa using hr1) with hlt | heq
    · rw [heapGet_snoc_lt hlt] at hr2 ⊢
      obtain ⟨l, hfa, hmem⟩ := hI.bucketComplete rid hlt hr2
      rw [Tree.findAux_update]
      by_cases hsk : toLower (heapGet e.heap rid).last = toLower recIn.last
      · rw [if_pos hsk, hb]
        rw [hsk, hb] at hfa
        obtain rfl : l0 = l := Option.some.inj hfa
        exact ⟨l0 ++ [e.heap.length], rfl, List.mem_append_left _ hmem⟩
      · rw [if_neg hsk]
        exact ⟨l, hfa, hmem⟩
    · subst heq
      rw [heapGet_snoc_self, Tree.findAux_update, if_pos rfl, hb]
      exact ⟨l0 ++ [e.heap.length], rfl, List.mem_append_right _ (by simp)⟩
  · intro s l h
    rw [Tree.findAux_update] at h
    by_cases hsk : s = toLower recIn.last
    · exact ⟨e.heap.length, by simp, by rw [heapGet_snoc_self, hsk]⟩
    · rw [if_neg hsk] at h
      obtain ⟨rid, h1, h2⟩ := hI.bucketKeys s l h
      exact ⟨rid, by simpa using Nat.lt_succ_of_lt h1,
        by rw [heapGet_snoc_lt h1]; exact h2⟩

/-- The state reached by soft-deleting the record at `oldIndex` (what
`deleteById` builds, and the intermediate state of `insertRecord`'s update
path) satisfies the invariant. -/
theorem inv_delete_state {e : Engine} {id : Int} {oldIndex : Nat}
    (hI : Inv e) (hfind : e.idIndex.root.findAux id = some oldIndex) :
    Inv ⟨markDeleted e.heap oldIndex,
      ⟨e.idIndex.root.erase id, 0⟩,
      ⟨e.lastIndex.root.update (toLower (heapGet e.heap oldIndex).last)
        (fun xs => xs.filter (fun x => x ≠ oldIndex)), 0⟩⟩ := by
  obtain ⟨holdLen, holdId, holdLive⟩ := hI.idValid id oldIndex hfind
  obtain ⟨lold, hbold, hmemold⟩ := hI.bucketComplete oldIndex holdLen holdLive
  have hgetOld : heapGet (markDeleted e.heap oldIndex) oldIndex =
      { heapGet e.heap oldIndex with deleted := true } :=
    heapGet_markDeleted_self holdLen
  refine ⟨Tree.ordered_erase hI.idOrd, Tree.ordered_update hI.lastOrd, ?_, ?_, ?_, ?_, ?_⟩
  · intro i rid h
    rw [Tree.findAux_erase hI.idOrd] at h
    by_cases hik : i = id
    · rw [if_pos hik] at h; exact Option.noConfusion h
    · rw [if_neg hik] at h
      obtain ⟨h1, h2, h3⟩ := hI.idValid i rid h
      have hne : rid ≠ oldIndex := by
        intro hcontra
        subst hcontra
        exact hik (by rw [← h2, holdId])
      rw [markDeleted_length]
      rw [heapGet_markDeleted_ne _ hne]
      exact ⟨h1, h2, h3⟩
  · intro rid hr1 hr2
    rw [markDeleted_length] at hr1
    by_cases hne : rid = oldIndex
    · subst hne
      rw [hgetOld] at hr2
      exact absurd hr2 (by simp)
    · rw [heapGet_markDeleted_ne _ hne] at hr2 ⊢
      have hfa := hI.idComplete rid hr1 hr2
      rw [Tree.findAux_erase hI.idOrd]
      have hne2 : (heapGet e.heap rid).id ≠ id := by
        intro hcontra
        rw [hcontra, hfind] at hfa
        exact hne (Option.some.inj hfa).symm
      rw [if_neg hne2]
      exact hfa
  · intro s l h
    rw [Tree.findAux_update] at h
    by_cases hsk : s = toLower (heapGet e.heap oldIndex).last
    · rw [if_pos hsk, hbold] at h
      obtain rfl : lold.filter (fun x => decide (x ≠ oldIndex)) = l :=
        Option.some.inj h
      obtain ⟨hnd0, hmem0⟩ := hI.bucketValid _ _ hbold
      refine ⟨hnd0.filter _, ?_⟩
      intro rid hrid
      obtain ⟨hmem, hne⟩ := List.mem_filter.1 hrid
      have hne' : rid ≠ oldIndex := by simpa using hne
      obtain ⟨h1, h2, h3⟩ := hmem0 rid hmem
      rw [markDeleted_length, heapGet_markDeleted_ne _ hne']
      exact ⟨h1, h2, h3.trans hsk.symm⟩
    · rw [if_neg hsk] at h
      obtain ⟨hnd, hmem⟩ := hI.bucketValid s l h
      refine ⟨hnd, ?_⟩
      intro rid hrid
      obtain ⟨h1, h2, h3⟩ := hmem rid hrid
      have hne : rid ≠ oldIndex := by
        intro hcontra
        subst hcontra
        exact hsk h3.symm
      rw [markDeleted_length, heapGet_markDeleted_ne _ hne]
      exact ⟨h1, h2, h3⟩
  · intro rid hr1 hr2
    rw [markDeleted_length] at hr1
    by_cases hne : rid = oldIndex
    · subst hne
      rw [hgetOld] at hr2
      exact absurd hr2 (by simp)
    · rw [heapGet_markDeleted_ne _ hne] at hr2 ⊢
      obtain ⟨l, hfa, hmem⟩ := hI.bucketComplete rid hr1 hr2
      rw [Tree.findAux_update]
      by_cases hsk : toLower (heapGet e.heap rid).last =
          toLower (heapGet e.heap oldIndex).last
      · rw [hsk] at hfa ⊢
        rw [if_pos rfl, hbold]
        rw [hbold] at hfa
        obtain rfl : lold = l := Option.some.inj hfa
        exact ⟨_, rfl, List.mem_filter.2 ⟨hmem, by simpa using hne⟩⟩
      · rw [if_neg hsk]
        exact ⟨l, hfa, hmem⟩
  · intro s l h
    rw [Tree.findAux_update] at h
    by_cases hsk : s = toLower (heapGet e.heap oldIndex).last
    · refine ⟨oldIndex, by rw [markDeleted_length]; exact holdLen, ?_⟩
      rw [heapGet_markDeleted_last, hsk]
    · rw [if_neg hsk] at h
      obtain ⟨rid, h1, h2⟩ := hI.bucketKeys s l h
      refine ⟨rid, by rw [markDeleted_length]; exact h1, ?_⟩
      rw [heapGet_markDeleted_last]
      exact h2

/-- `insertRecord` preserves the invariant. -/
theorem inv_insertRecord {e : Engine} {recIn : Record} (hI : Inv e)
    (hr : recIn.deleted = false) : Inv (e.insertRecord recIn).2 := by
  cases hfind : e.idIndex.root.findAux recIn.id with
  | none =>
    cases hb : e.lastIndex.root.findAux (toLower recIn.last) with
    | none =>
      refine inv_of_eq (inv_fresh_new hI hr hfind hb) ?_ ?_ ?_ <;>
        simp [Engine.insertRecord, BSTM.find, BSTM.insert, BSTM.update, hfind, hb]
    | some l0 =>
      refine inv_of_eq (inv_fresh_old hI hr hfind hb) ?_ ?_ ?_ <;>
        simp [Engine.insertRecord, BSTM.find, BSTM.insert, BSTM.update, hfind, hb]
  | some oldIndex =>
    obtain ⟨holdLen, holdId, holdLive⟩ := hI.idValid recIn.id oldIndex hfind
    obtain ⟨lold, hbold, -⟩ := hI.bucketComplete oldIndex holdLen holdLive
    have hmid : Inv (⟨markDeleted e.heap oldIndex,
        ⟨e.idIndex.root.erase recIn.id, 0⟩,
        ⟨e.lastIndex.root.update (toLower (heapGet e.heap oldIndex).last)
          (fun xs => xs.filter (fun x => x ≠ oldIndex)), 0⟩⟩ : Engine) :=
      inv_delete_state hI hfind
    have hfind2 : (e.idIndex.root.erase recIn.id).findAux recIn.id = none := by
      rw [Tree.findAux_erase hI.idOrd, if_pos rfl]
    cases hb2 : (e.lastIndex.root.update (toLower (heapGet e.heap oldIndex).last)
        (fun xs => xs.filter (fun x => x ≠ oldIndex))).findAux (toLower recIn.last) with
    | none =>
      refine inv_of_eq (inv_fresh_new hmid hr hfind2 hb2) ?_ ?_ ?_ <;>
        (simp only [ne_eq, decide_not] at hb2;
          simp [Engine.insertRecord, BSTM.find, BSTM.insert, BSTM.update, BSTM.erase,
            hfind, hbold, hb2, markDeleted_length, heapGet_markDeleted_last])
    | some l1 =>
      refine inv_of_eq (inv_fresh_old hmid hr hfind2 hb2) ?_ ?_ ?_ <;>
        (simp only [ne_eq, decide_not] at hb2;
          simp [Engine.insertRecord, BSTM.find, BSTM.insert, BSTM.update, BSTM.erase,
            hfind, hbold, hb2, markDeleted_length, heapGet_markDeleted_last])

/-- `deleteById` preserves the invariant. -/
theorem inv_deleteById {e : Engine} (hI : Inv e) (id : Int) :
    Inv (e.deleteById id).2 := by
  cases hfind : e.idIndex.root.findAux id with
  | none =>
    refine inv_of_eq hI ?_ ?_ ?_ <;> simp [Engine.deleteById, BSTM.find, hfind]
  | some oldIndex =>
    obtain ⟨holdLen, holdId, holdLive⟩ := hI.idValid id oldIndex hfind
    obtain ⟨lold, hbold, -⟩ := hI.bucketComplete oldIndex holdLen holdLive
    refine inv_of_eq (inv_delete_state hI hfind) ?_ ?_ ?_ <;>
      simp [Engine.deleteById, BSTM.find, BSTM.erase, BSTM.update, hfind, hbold,
        heapGet_markDeleted_last]

/-- The three queries only touch comparison counters. -/
theorem inv_findById {e : Engine} (hI : Inv e) (id : Int) :
    Inv (e.findById id).2.2 :=
  inv_of_eq hI rfl rfl rfl

theorem inv_rangeById {e : Engine} (hI : Inv e) (lo hi : Int) :
    Inv (e.rangeById lo hi).2.2 :=
  inv_of_eq hI rfl rfl rfl

theorem inv_prefixByLast {e : Engine} (hI : Inv e) (p : Name) :
    Inv (e.prefixByLast p).2.2 :=
  inv_of_eq hI rfl rfl rfl

/-- Every completed operation preserves the invariant. -/
theorem Step.inv_pres {e e' : Engine} (h : Step e e') (hI : Inv e) : Inv e' := by
  cases h with
  | insert r hr => exact inv_insertRecord hI hr
  | delete id => exact inv_deleteById hI id
  | findq id => exact inv_findById hI id
  | rangeq lo hi => exact inv_rangeById hI lo hi
  | prefixq p => exact inv_prefixByLast hI p

/-- Every reachable state satisfies the invariant. -/
theorem Reachable.inv {e : Engine} (h : Reachable e) : Inv e := by
  induction h with
  | refl => exact inv_empty
  | tail _ hstep ih => exact hstep.inv_pres ih

/-! ## Shape lemmas for the operations -/

theorem insertRecord_fst (e : Engine) (recIn : Record) :
    (e.insertRecord recIn).1 = e.heap.length := by
  cases hfind : e.idIndex.root.findAux recIn.id with
  | none => simp [Engine.insertRecord, BSTM.find, hfind]
  | some oldIndex => simp [Engine.insertRecord, BSTM.find, hfind]

theorem insertRecord_heap_fresh {e : Engine} {recIn : Record}
    (hfind : e.idIndex.root.findAux recIn.id = none) :
    (e.insertRecord recIn).2.heap = e.heap ++ [recIn] := by
  simp [Engine.insertRecord, BSTM.find, hfind]

theorem insertRecord_heap_upd {e : Engine} {recIn : Record} {oldIndex : Nat}
    (hfind : e.idIndex.root.findAux recIn.id = some oldIndex) :
    (e.insertRecord recIn).2.heap = markDeleted e.heap oldIndex ++ [recIn] := by
  simp [Engine.insertRecord, BSTM.find, hfind]

theorem insertRecord_idRoot_fresh {e : Engine} {recIn : Record}
    (hfind : e.idIndex.root.findAux recIn.id = none) :
    (e.insertRecord recIn).2.idIndex.root =
      e.idIndex.root.insert recIn.id e.heap.length := by
  simp [Engine.insertRecord, BSTM.find, BSTM.insert, hfind]

theorem insertRecord_idRoot_upd {e : Engine} {recIn : Record} {oldIndex : Nat}
    (hfind : e.idIndex.root.findAux recIn.id = some oldIndex) :
    (e.insertRecord recIn).2.idIndex.root =
      (e.idIndex.root.erase recIn.id).insert recIn.id e.heap.length := by
  simp [Engine.insertRecord, BSTM.find, BSTM.insert, BSTM.erase, hfind,
    markDeleted_length]

theorem deleteById_none {e : Engine} {id : Int}
    (hfind : e.idIndex.root.findAux id = none) :
    (e.deleteById id).1 = false ∧
    (e.deleteById id).2.heap = e.heap ∧
    (e.deleteById id).2.idIndex.root = e.idIndex.root ∧
    (e.deleteById id).2.lastIndex = e.lastIndex := by
  refine ⟨?_, ?_, ?_, ?_⟩ <;> simp [Engine.deleteById, BSTM.find, hfind]

theorem deleteById_some {e : Engine} {id : Int} {oldIndex : Nat}
    (hfind : e.idIndex.root.findAux id = some oldIndex) :
    (e.deleteById id).1 = true ∧
    (e.deleteById id).2.heap = markDeleted e.heap oldIndex ∧
    (e.deleteById id).2.idIndex.root = e.idIndex.root.erase id := by
  refine ⟨?_, ?_, ?_⟩ <;>
    simp [Engine.deleteById, BSTM.find, BSTM.erase, hfind]

theorem deleteById_some_lastRoot {e : Engine} {id : Int} {oldIndex : Nat}
    {lold : List Nat}
    (hfind : e.idIndex.root.findAux id = some oldIndex)
    (hbold : e.lastIndex.root.findAux
        (toLower (heapGet e.heap oldIndex).last) = some lold) :
    (e.deleteById id).2.lastIndex.root =
      e.lastIndex.root.update (toLower (heapGet e.heap oldIndex).last)
        (fun xs => xs.filter (fun x => x ≠ oldIndex)) := by
  simp [Engine.deleteById, BSTM.find, BSTM.update, hfind, hbold,
    heapGet_markDeleted_last]

theorem findById_res (e : Engine) (id : Int) :
    (e.findById id).1 = e.idIndex.root.findAux id := rfl

theorem findById_cmp (e : Engine) (id : Int) :
    (e.findById id).2.1 = e.idIndex.root.findCost id := by
  simp [Engine.findById, BSTM.resetMetrics, BSTM.find]

theorem findById_state (e : Engine) (id : Int) :
    (e.findById id).2.2.heap = e.heap ∧
    (e.findById id).2.2.idIndex.root = e.idIndex.root ∧
    (e.findById id).2.2.lastIndex = e.lastIndex :=
  ⟨rfl, rfl, rfl⟩

theorem rangeById_res (e : Engine) (lo hi : Int) :
    (e.rangeById lo hi).1 =
      ((e.idIndex.root.rangeList lo hi).map Prod.snd).filter
        (fun rid => !(heapGet e.heap rid).deleted) := rfl

theorem rangeById_cmp (e : Engine) (lo hi : Int) :
    (e.rangeById lo hi).2.1 = e.idIndex.root.rangeCost lo hi := by
  simp [Engine.rangeById, BSTM.resetMetrics, BSTM.rangeApply]

theorem prefixByLast_res (e : Engine) (pre : Name) :
    (e.prefixByLast pre).1 =
      ((e.lastIndex.root.rangeList (toLower pre) (toLower pre ++ [sentinelChar])).map
        (fun kv => kv.2.filter (fun rid => !(heapGet e.heap rid).deleted))).flatten :=
  rfl

theorem prefixByLast_cmp (e : Engine) (pre : Name) :
    (e.prefixByLast pre).2.1 =
      e.lastIndex.root.rangeCost (toLower pre) (toLower pre ++ [sentinelChar]) := by
  simp [Engine.prefixByLast, BSTM.resetMetrics, BSTM.rangeApply]

/-- Membership in a `rangeById` result list. -/
theorem mem_rangeById {e : Engine} {lo hi : Int} {p : Nat} :
    p ∈ (e.rangeById lo hi).1 ↔
      (∃ k, (k, p) ∈ e.idIndex.root.rangeList lo hi) ∧
        (heapGet e.heap p).deleted = false := by
  rw [rangeById_res, List.mem_filter, List.mem_map]
  constructor
  · rintro ⟨⟨⟨k, p'⟩, hm, rfl⟩, hlive⟩
    exact ⟨⟨k, hm⟩, by simpa using hlive⟩
  · rintro ⟨⟨k, hm⟩, hlive⟩
    exact ⟨⟨(k, p), hm, rfl⟩, by simpa using hlive⟩

/-- Membership in a `prefixByLast` result list. -/
theorem mem_prefixByLast {e : Engine} {pre : Name} {p : Nat} :
    p ∈ (e.prefixByLast pre).1 ↔
      (∃ s l, (s, l) ∈ e.lastIndex.root.rangeList (toLower pre)
          (toLower pre ++ [sentinelChar]) ∧ p ∈ l) ∧
        (heapGet e.heap p).deleted = false := by
  rw [prefixByLast_res, List.mem_flatten]
  constructor
  · rintro ⟨xs, hxs, hp⟩
    obtain ⟨⟨s, l⟩, hm, rfl⟩ := List.mem_map.1 hxs
    obtain ⟨hpl, hlive⟩ := List.mem_filter.1 hp
    exact ⟨⟨s, l, hm, hpl⟩, by simpa using hlive⟩
  · rintro ⟨⟨s, l, hm, hpl⟩, hlive⟩
    refine ⟨l.filter (fun rid => !(heapGet e.heap rid).deleted), ?_, ?_⟩
    · exact List.mem_map.2 ⟨(s, l), hm, rfl⟩
    · exact List.mem_filter.2 ⟨hpl, by simpa using hlive⟩

/-- Any position whose record is soft-deleted never appears in a
`rangeById` result. -/
theorem deleted_not_mem_rangeById {e : Engine} {p : Nat} {lo hi : Int}
    (hdel : (heapGet e.heap p).deleted = true) : p ∉ (e.rangeById lo hi).1 := by
  intro hmem
  rw [mem_rangeById] at hmem
  rw [hmem.2] at hdel
  exact Bool.noConfusion hdel

/-- Any position whose record is soft-deleted never appears in a
`prefixByLast` result. -/
theorem deleted_not_mem_prefixByLast {e : Engine} {p : Nat} {pre : Name}
    (hdel : (heapGet e.heap p).deleted = true) : p ∉ (e.prefixByLast pre).1 := by
  intro hmem
  rw [mem_prefixByLast] at hmem
  rw [hmem.2] at hdel
  exact Bool.noConfusion hdel

/-- One operation never revives a soft-deleted heap slot. -/
theorem step_deleted_stable {e e' : Engine} (h : Step e e') {p : Nat}
    (hlen : p < e.heap.length) (hdel : (heapGet e.heap p).deleted = true) :
    p < e'.heap.length ∧ (heapGet e'.heap p).deleted = true := by
  cases h with
  | insert r hr =>
    cases hfind : e.idIndex.root.findAux r.id with
    | none =>
      rw [insertRecord_heap_fresh hfind]
      refine ⟨by simpa using Nat.lt_succ_of_lt hlen, ?_⟩
      rw [heapGet_snoc_lt hlen]
      exact hdel
    | some oldIndex =>
      rw [insertRecord_heap_upd hfind]
      have hlen' : p < (markDeleted e.heap oldIndex).length := by
        rw [markDeleted_length]; exact hlen
      refine ⟨by simpa using Nat.lt_succ_of_lt hlen', ?_⟩
      rw [heapGet_snoc_lt hlen']
      exact heapGet_markDeleted_deleted _ _ _ hdel
  | delete id =>
    cases hfind : e.idIndex.root.findAux id with
    | none =>
      rw [(deleteById_none hfind).2.1]
      exact ⟨hlen, hdel⟩
    | some oldIndex =>
      rw [(deleteById_some hfind).2.1]
      rw [markDeleted_length]
      exact ⟨hlen, heapGet_markDeleted_deleted _ _ _ hdel⟩
  | findq id => exact ⟨hlen, hdel⟩
  | rangeq lo hi => exact ⟨hlen, hdel⟩
  | prefixq pre => exact ⟨hlen, hdel⟩

/-- Soft deletion is permanent across any sequence of operations. -/
theorem reaches_deleted_stable {e e' : Engine} (h : Reaches e e') {p : Nat}
    (hlen : p < e.heap.length) (hdel : (heapGet e.heap p).deleted = true) :
    p < e'.heap.length ∧ (heapGet e'.heap p).deleted = true := by
  induction h with
  | refl => exact ⟨hlen, hdel⟩
  | tail _ hstep ih => exact step_deleted_stable hstep ih.1 ih.2

/-! ## Concrete states used to instantiate the claims -/

/-- A sample record with id 1 and last name `"a"`. -/
def recA : Record := ⟨1, ['a'], [], false⟩

/-- A second record reusing id 1, with last name `"b"`. -/
def recB : Record := ⟨1, ['b'], [], false⟩

/-- The engine after inserting `recA` into a fresh store. -/
def engOne : Engine := (Engine.empty.insertRecord recA).2

theorem engOne_reachable : Reachable engOne :=
  Relation.ReflTransGen.single (Step.insert Engine.empty recA rfl)

/-! ## Claims -/

/-- What `insertRecord` returns and where the new record lands. -/
def InsertReturnSpec (e : Engine) (recIn : Record) : Prop :=
  (e.insertRecord recIn).1 = e.heap.length ∧
  (e.insertRecord recIn).2.heap.length = e.heap.length + 1 ∧
  heapGet (e.insertRecord recIn).2.heap ((e.insertRecord recIn).1) = recIn ∧
  ∀ p, e.idIndex.root.findAux recIn.id = some p → p ≠ (e.insertRecord recIn).1

/-- C1 (amended): `insertRecord` returns the pre-append heap size on both the
fresh path and the update path, and on both paths that value is exactly the
newly appended record's own final heap position (the heap grows by one and
the new record sits at the returned index); on the update path the returned
value therefore differs from the old, soft-deleted occupant's position. -/
theorem claim_C1 (e : Engine) (he : Reachable e) (recIn : Record) :
    InsertReturnSpec e recIn := by
  refine ⟨insertRecord_fst e recIn, ?_, ?_, ?_⟩
  · cases hfind : e.idIndex.root.findAux recIn.id with
    | none => simp [insertRecord_heap_fresh hfind]
    | some oldIndex => simp [insertRecord_heap_upd hfind, markDeleted_length]
  · rw [insertRecord_fst]
    cases hfind : e.idIndex.root.findAux recIn.id with
    | none => rw [insertRecord_heap_fresh hfind, heapGet_snoc_self]
    | some oldIndex =>
      rw [insertRecord_heap_upd hfind]
      have hlen : (markDeleted e.heap oldIndex).length = e.heap.length :=
        markDeleted_length _ _
      rw [← hlen, heapGet_snoc_self]
  · intro p hp
    obtain ⟨h1, -, -⟩ := he.inv.idValid recIn.id p hp
    rw [insertRecord_fst]
    exact Nat.ne_of_lt h1

theorem claim_C1_witness :
    Reachable engOne ∧ InsertReturnSpec engOne recB :=
  ⟨engOne_reachable, claim_C1 engOne engOne_reachable recB⟩

/-- C1 as stated is false: inserting `recB` over the live occupant of id 1
(at position 0) returns position 1, which is the new record's own heap
position, not the old occupant's position 0. -/
theorem claim_C1_counterexample :
    engOne.idIndex.root.findAux recB.id = some 0 ∧
    (engOne.insertRecord recB).1 = 1 ∧
    heapGet (engOne.insertRecord recB).2.heap 1 = recB ∧
    (engOne.insertRecord recB).1 ≠ 0 := by
  refine ⟨?_, ?_, ?_, ?_⟩ <;> decide

/-- What `deleteById` does on the miss path and on the hit path. -/
def DeleteSpec (e : Engine) (id : Int) : Prop :=
  ((∀ p, p < e.heap.length → (heapGet e.heap p).deleted = false →
      (heapGet e.heap p).id ≠ id) →
    (e.deleteById id).1 = false ∧
    (e.deleteById id).2.heap = e.heap ∧
    (e.deleteById id).2.idIndex.root = e.idIndex.root ∧
    (e.deleteById id).2.lastIndex = e.lastIndex) ∧
  (∀ p, p < e.heap.length → (heapGet e.heap p).deleted = false →
    (heapGet e.heap p).id = id →
    (e.deleteById id).1 = true ∧
    (e.deleteById id).2.heap = markDeleted e.heap p ∧
    (heapGet (e.deleteById id).2.heap p).deleted = true ∧
    (e.deleteById id).2.idIndex.root.findAux id = none ∧
    ∀ l, e.lastIndex.root.findAux (toLower (heapGet e.heap p).last) = some l →
      (e.deleteById id).2.lastIndex.root.findAux
          (toLower (heapGet e.heap p).last) =
        some (l.filter (fun x => x ≠ p)))

/-- C7 (amended): when no live record holds `id`, `deleteById` returns
`false` and leaves the heap, the primary-index tree, and the entire
secondary index unchanged — the only state it touches is the primary
index's comparison counter, which advances by the cost of the failed
lookup.  When a live record holds `id`, it flips that record's `deleted`
flag, removes the primary-index entry, filters the position out of its
last-name bucket, and returns `true`. -/
theorem claim_C7 (e : Engine) (he : Reachable e) (id : Int) :
    DeleteSpec e id := by
  constructor
  · intro hnone
    cases hfind : e.idIndex.root.findAux id with
    | none => exact deleteById_none hfind
    | some rid =>
      obtain ⟨h1, h2, h3⟩ := he.inv.idValid id rid hfind
      exact absurd h2 (hnone rid h1 h3)
  · intro p hp hlive hid
    have hfind : e.idIndex.root.findAux id = some p := by
      rw [← hid]
      exact he.inv.idComplete p hp hlive
    obtain ⟨hfst, hheap, hidroot⟩ := deleteById_some hfind
    refine ⟨hfst, hheap, ?_, ?_, ?_⟩
    · rw [hheap, heapGet_markDeleted_self hp]
    · rw [hidroot, Tree.findAux_erase he.inv.idOrd, if_pos rfl]
    · intro l hl
      rw [deleteById_some_lastRoot hfind hl, Tree.findAux_update, if_pos rfl, hl]
      rfl

theorem claim_C7_witness :
    Reachable engOne ∧ DeleteSpec engOne 2 :=
  ⟨engOne_reachable, claim_C7 engOne engOne_reachable 2⟩

/-- C7 as stated is false in its "no side effects" part: `deleteById` on an
absent id still performs the failed primary-index lookup, whose comparisons
accumulate into the index's counter, so the primary-index object does
change. -/
theorem claim_C7_counterexample :
    (engOne.deleteById 2).1 = false ∧
    (engOne.deleteById 2).2.idIndex ≠ engOne.idIndex ∧
    (engOne.deleteById 2).2.idIndex.comparisons = 2 ∧
    engOne.idIndex.comparisons = 0 := by
  refine ⟨?_, ?_, ?_, ?_⟩ <;> decide

/-- What `findById` returns. -/
def FindSpec (e : Engine) (id : Int) : Prop :=
  (e.findById id).1 = e.idIndex.root.findAux id ∧
  ∀ p, (e.findById id).1 = some p →
    p < e.heap.length ∧ (heapGet e.heap p).deleted = false

/-- C8: `findById` answers exactly the primary-index lookup — it returns a
position precisely when the index holds an entry for the id, applying no
filter of its own on the `deleted` flag (absence is signalled by `none`,
not an error) — and yet under the reachable-state invariants the record it
returns is never soft-deleted, because deletion removes the primary-index
entry. -/
theorem claim_C8 (e : Engine) (he : Reachable e) (id : Int) :
    FindSpec e id := by
  refine ⟨rfl, ?_⟩
  intro p hp
  rw [findById_res] at hp
  obtain ⟨h1, -, h3⟩ := he.inv.idValid id p hp
  exact ⟨h1, h3⟩

theorem claim_C8_witness :
    Reachable engOne ∧ FindSpec engOne 1 :=
  ⟨engOne_reachable, claim_C8 engOne engOne_reachable 1⟩

/-- What each query reports as its comparison count. -/
def MetricsSpec (e : Engine) (i1 i2 lo hi : Int) (pre : Name) : Prop :=
  (e.findById i1).2.1 = e.idIndex.root.findCost i1 ∧
  ((e.findById i1).2.2.findById i2).2.1 = e.idIndex.root.findCost i2 ∧
  (e.rangeById lo hi).2.1 = e.idIndex.root.rangeCost lo hi ∧
  (e.prefixByLast pre).2.1 =
    e.lastIndex.root.rangeCost (toLower pre) (toLower pre ++ [sentinelChar])

/-- C9: `findById`, `rangeById` and `prefixByLast` each reset the relevant
index's comparison counter before searching, so the count they report is a
function of the index tree and the query alone — in particular, two
consecutive `findById` calls each report the cost of a fresh search from
the root, with no accumulation from the previous call or from any earlier
state of the counter. -/
theorem claim_C9 (e : Engine) (i1 i2 lo hi : Int) (pre : Name) :
    MetricsSpec e i1 i2 lo hi pre := by
  refine ⟨findById_cmp e i1, ?_, rangeById_cmp e lo hi, prefixByLast_cmp e pre⟩
  rw [findById_cmp]
  rfl

/-- A `filter` keeping exactly one element of a duplicate-free list. -/
theorem filter_eq_singleton {α : Type} {pred : α → Bool} {xs : List α} {a : α}
    (hnd : xs.Nodup) (ha : a ∈ xs) (hpa : pred a = true)
    (huniq : ∀ x ∈ xs, pred x = true → x = a) : xs.filter pred = [a] := by
  induction xs with
  | nil => cases ha
  | cons x xs ih =>
    obtain ⟨hx_not, hnd'⟩ := List.nodup_cons.1 hnd
    rw [List.filter_cons]
    rcases List.mem_cons.1 ha with rfl | ha'
    · rw [if_pos hpa]
      have : xs.filter pred = [] := by
        apply List.filter_eq_nil_iff.2
        intro b hb hpb
        have hba := huniq b (List.mem_cons_of_mem _ hb) hpb
        subst hba
        exact hx_not hb
      rw [this]
    · have hx : ¬ pred x = true := by
        intro hpx
        have := huniq x (List.mem_cons_self _ _) hpx
        subst this
        exact hx_not ha'
      rw [if_neg hx]
      exact ih hnd' ha' fun b hb hpb => huniq b (List.mem_cons_of_mem _ hb) hpb

/-- A position is live when it is in bounds and not soft-deleted. -/
def LiveAt (e : Engine) (p : Nat) : Prop :=
  p < e.heap.length ∧ (heapGet e.heap p).deleted = false

/-- The spec's data-model invariants, phrased over the index entries: each
live position has exactly one primary entry (keyed by its id), appears in
exactly one secondary bucket (the one keyed by its normalized last name,
and exactly once inside it), and soft-deleted positions appear in neither
index. -/
def IndexesConsistent (e : Engine) : Prop :=
  (∀ p, LiveAt e p →
    e.idIndex.root.entries.filter (fun kv => decide (kv.2 = p)) =
      [((heapGet e.heap p).id, p)]) ∧
  (∀ p, LiveAt e p →
    (e.lastIndex.root.entries.filter (fun kv => decide (p ∈ kv.2))).map Prod.fst =
      [toLower (heapGet e.heap p).last] ∧
    ∀ l, e.lastIndex.root.findAux (toLower (heapGet e.heap p).last) = some l →
      l.count p = 1) ∧
  (∀ p, p < e.heap.length → (heapGet e.heap p).deleted = true →
    (∀ kv ∈ e.idIndex.root.entries, kv.2 ≠ p) ∧
    (∀ kv ∈ e.lastIndex.root.entries, p ∉ kv.2))

/-- The inductive invariant implies the entries-level consistency form. -/
theorem inv_indexesConsistent {e : Engine} (hI : Inv e) : IndexesConsistent e := by
  refine ⟨?_, ?_, ?_⟩
  · intro p hl
    have hfa : e.idIndex.root.findAux (heapGet e.heap p).id = some p :=
      hI.idComplete p hl.1 hl.2
    have hmem : ((heapGet e.heap p).id, p) ∈ e.idIndex.root.entries :=
      (Tree.findAux_eq_some_iff hI.idOrd).1 hfa
    apply filter_eq_singleton hI.idOrd.entries_nodup hmem (by simp)
    rintro ⟨k, v⟩ hkv hpred
    have hfv : e.idIndex.root.findAux k = some v :=
      (Tree.findAux_eq_some_iff hI.idOrd).2 hkv
    have hv : v = p := by simpa using hpred
    subst hv
    obtain ⟨-, hid, -⟩ := hI.idValid k v hfv
    rw [← hid]
  · intro p hl
    obtain ⟨lB, hfaB, hmemB⟩ := hI.bucketComplete p hl.1 hl.2
    have hentry : (toLower (heapGet e.heap p).last, lB) ∈ e.lastIndex.root.entries :=
      (Tree.findAux_eq_some_iff hI.lastOrd).1 hfaB
    constructor
    · have hfil : e.lastIndex.root.entries.filter (fun kv => decide (p ∈ kv.2)) =
          [(toLower (heapGet e.heap p).last, lB)] := by
        apply filter_eq_singleton hI.lastOrd.entries_nodup hentry (by simpa using hmemB)
        rintro ⟨s, l⟩ hkv hpred
        have hfs : e.lastIndex.root.findAux s = some l :=
          (Tree.findAux_eq_some_iff hI.lastOrd).2 hkv
        have hps : p ∈ l := by simpa using hpred
        obtain ⟨-, hforall⟩ := hI.bucketValid s l hfs
        obtain ⟨-, -, hkey⟩ := hforall p hps
        subst hkey
        rw [hfs] at hfaB
        obtain rfl := Option.some.inj hfaB
        rfl
      rw [hfil]
      rfl
    · intro l hfl
      rw [hfaB] at hfl
      obtain rfl := Option.some.inj hfl
      exact List.count_eq_one_of_mem (hI.bucketValid _ _ hfaB).1 hmemB
  · intro p hp hdel
    constructor
    · rintro ⟨k, v⟩ hkv hv
      have hfv : e.idIndex.root.findAux k = some v :=
        (Tree.findAux_eq_some_iff hI.idOrd).2 hkv
      obtain ⟨-, -, hlive⟩ := hI.idValid k v hfv
      have hv' : v = p := hv
      subst hv'
      rw [hdel] at hlive
      exact Bool.noConfusion hlive
    · rintro ⟨s, l⟩ hkv hpmem
      have hfs : e.lastIndex.root.findAux s = some l :=
        (Tree.findAux_eq_some_iff hI.lastOrd).2 hkv
      obtain ⟨-, hforall⟩ := hI.bucketValid s l hfs
      obtain ⟨-, hlive, -⟩ := hforall p hpmem
      rw [hdel] at hlive
      exact Bool.noConfusion hlive

/-- C2: after every completed public operation on a reachable state, every
live record has exactly one primary-index entry (mapping its id to its heap
position), its position sits in exactly one secondary-index bucket — the
one keyed by its own lowercased last name, exactly once — and soft-deleted
positions appear in neither index. -/
theorem claim_C2 (e : Engine) (he : Reachable e) (r : Record)
    (hr : r.deleted = false) (id lo hi : Int) (pre : Name) :
    IndexesConsistent (e.insertRecord r).2 ∧
    IndexesConsistent (e.deleteById id).2 ∧
    IndexesConsistent (e.findById id).2.2 ∧
    IndexesConsistent (e.rangeById lo hi).2.2 ∧
    IndexesConsistent (e.prefixByLast pre).2.2 :=
  ⟨inv_indexesConsistent (inv_insertRecord he.inv hr),
   inv_indexesConsistent (inv_deleteById he.inv id),
   inv_indexesConsistent (inv_findById he.inv id),
   inv_indexesConsistent (inv_rangeById he.inv lo hi),
   inv_indexesConsistent (inv_prefixByLast he.inv pre)⟩

theorem claim_C2_witness :
    Reachable engOne ∧ recB.deleted = false ∧
    (IndexesConsistent (engOne.insertRecord recB).2 ∧
     IndexesConsistent (engOne.deleteById 1).2 ∧
     IndexesConsistent (engOne.findById 1).2.2 ∧
     IndexesConsistent (engOne.rangeById 0 2).2.2 ∧
     IndexesConsistent (engOne.prefixByLast ['a']).2.2) :=
  ⟨engOne_reachable, rfl,
   claim_C2 engOne engOne_reachable recB rfl 1 0 2 ['a']⟩

/-- The new record always lands at the returned position. -/
theorem insertRecord_heapGet_ret (e : Engine) (recIn : Record) :
    heapGet (e.insertRecord recIn).2.heap ((e.insertRecord recIn).1) = recIn := by
  rw [insertRecord_fst]
  cases hfind : e.idIndex.root.findAux recIn.id with
  | none => rw [insertRecord_heap_fresh hfind, heapGet_snoc_self]
  | some oldIndex =>
    rw [insertRecord_heap_upd hfind]
    have hlen : (markDeleted e.heap oldIndex).length = e.heap.length :=
      markDeleted_length _ _
    rw [← hlen, heapGet_snoc_self]

/-- What `rangeById` returns on a reachable state. -/
def RangeSpec (e : Engine) (lo hi : Int) : Prop :=
  (∀ p, p ∈ (e.rangeById lo hi).1 ↔
    (LiveAt e p ∧ lo ≤ (heapGet e.heap p).id ∧ (heapGet e.heap p).id ≤ hi)) ∧
  (e.rangeById lo hi).1.Pairwise
    (fun a b => (heapGet e.heap a).id < (heapGet e.heap b).id) ∧
  (e.rangeById lo hi).1.Nodup

/-- C3: for `lo ≤ hi`, `rangeById lo hi` returns exactly the live positions
whose record id lies in `[lo, hi]` — each exactly once — in strictly
ascending id order. -/
theorem claim_C3 (e : Engine) (he : Reachable e) (lo hi : Int)
    (hlohi : lo ≤ hi) : RangeSpec e lo hi := by
  have hOrd := he.inv.idOrd
  have hpw : (e.rangeById lo hi).1.Pairwise
      (fun a b => (heapGet e.heap a).id < (heapGet e.heap b).id) := by
    have hent := hOrd.entries_pairwise
    have hsub : List.Sublist (e.idIndex.root.rangeList lo hi) e.idIndex.root.entries := by
      rw [Tree.rangeList_eq_filter hOrd]
      exact List.filter_sublist _
    have hrl := List.Pairwise.sublist hsub hent
    have hidkey : ∀ kv ∈ e.idIndex.root.rangeList lo hi,
        (heapGet e.heap kv.2).id = kv.1 := by
      intro kv hkv
      rw [Tree.mem_rangeList_iff hOrd] at hkv
      have hfa := (Tree.findAux_eq_some_iff hOrd).2 hkv.1
      exact (he.inv.idValid kv.1 kv.2 hfa).2.1
    have hrl2 : (e.idIndex.root.rangeList lo hi).Pairwise
        (fun a b => (heapGet e.heap a.2).id < (heapGet e.heap b.2).id) := by
      refine List.Pairwise.imp_of_mem ?_ hrl
      intro a b ha hb hab
      rw [hidkey a ha, hidkey b hb]
      exact hab
    rw [rangeById_res]
    apply List.Pairwise.filter
    rw [List.pairwise_map]
    exact hrl2
  refine ⟨?_, hpw, ?_⟩
  · intro p
    rw [mem_rangeById]
    constructor
    · rintro ⟨⟨k, hm⟩, hlive⟩
      rw [Tree.mem_rangeList_iff hOrd] at hm
      obtain ⟨hent, hlo, hhi⟩ := hm
      have hfa := (Tree.findAux_eq_some_iff hOrd).2 hent
      obtain ⟨h1, h2, -⟩ := he.inv.idValid k p hfa
      exact ⟨⟨h1, hlive⟩, by rw [h2]; exact hlo, by rw [h2]; exact hhi⟩
    · rintro ⟨⟨h1, h2⟩, hlo, hhi⟩
      have hfa := he.inv.idComplete p h1 h2
      refine ⟨⟨(heapGet e.heap p).id, ?_⟩, h2⟩
      rw [Tree.mem_rangeList_iff hOrd]
      exact ⟨(Tree.findAux_eq_some_iff hOrd).1 hfa, hlo, hhi⟩
  · exact hpw.imp fun hab heq => by rw [heq] at hab; exact lt_irrefl _ hab

theorem claim_C3_witness :
    Reachable engOne ∧ (0 : Int) ≤ 2 ∧ RangeSpec engOne 0 2 :=
  ⟨engOne_reachable, by decide, claim_C3 engOne engOne_reachable 0 2 (by decide)⟩

/-- Insert-then-find, and permanent exclusion of the overwritten slot. -/
def InsertFindSpec (e : Engine) (r : Record) (i : Int) : Prop :=
  ((e.insertRecord r).2.findById i).1 = some (e.insertRecord r).1 ∧
  heapGet (e.insertRecord r).2.heap ((e.insertRecord r).1) = r ∧
  ∀ p, e.idIndex.root.findAux i = some p →
    ∀ e2, Reaches (e.insertRecord r).2 e2 →
      (∀ lo hi, p ∉ (e2.rangeById lo hi).1) ∧
      (∀ pre, p ∉ (e2.prefixByLast pre).1)

/-- C5: after `insertRecord r` with `r.id = i`, `findById i` returns the
just-inserted record's position, whose heap slot holds a record equal to
`r`; and when a live record previously held id `i`, that prior occupant's
position never again appears in any `rangeById` or `prefixByLast` result,
however the store evolves afterwards. -/
theorem claim_C5 (e : Engine) (he : Reachable e) (r : Record)
    (hr : r.deleted = false) (i : Int) (hi : r.id = i) :
    InsertFindSpec e r i := by
  subst hi
  refine ⟨?_, insertRecord_heapGet_ret e r, ?_⟩
  · rw [findById_res, insertRecord_fst]
    cases hfind : e.idIndex.root.findAux r.id with
    | none => rw [insertRecord_idRoot_fresh hfind, Tree.findAux_insert, if_pos rfl]
    | some oldIndex =>
      rw [insertRecord_idRoot_upd hfind, Tree.findAux_erase_insert he.inv.idOrd,
        if_pos rfl]
  · intro p hp e2 hreach
    obtain ⟨hpl, -, -⟩ := he.inv.idValid r.id p hp
    have hplm : p < (markDeleted e.heap p).length := by
      rw [markDeleted_length]; exact hpl
    have hdel1 : p < (e.insertRecord r).2.heap.length ∧
        (heapGet (e.insertRecord r).2.heap p).deleted = true := by
      rw [insertRecord_heap_upd hp]
      refine ⟨by simpa using Nat.lt_succ_of_lt hplm, ?_⟩
      rw [heapGet_snoc_lt hplm, heapGet_markDeleted_self hpl]
    obtain ⟨-, hdel2⟩ := reaches_deleted_stable hreach hdel1.1 hdel1.2
    exact ⟨fun lo hi => deleted_not_mem_rangeById hdel2,
      fun pre => deleted_not_mem_prefixByLast hdel2⟩

theorem claim_C5_witness :
    Reachable engOne ∧ recB.deleted = false ∧ recB.id = 1 ∧
    InsertFindSpec engOne recB 1 :=
  ⟨engOne_reachable, rfl, rfl, claim_C5 engOne engOne_reachable recB rfl 1 rfl⟩

/-- What the two query paths and a repeated delete see after a successful
`deleteById`. -/
def DeleteQuerySpec (e : Engine) (id : Int) : Prop :=
  ((e.deleteById id).2.rangeById id id).1 = [] ∧
  (∀ p, e.idIndex.root.findAux id = some p →
    ∀ pre, p ∉ ((e.deleteById id).2.prefixByLast pre).1) ∧
  ((e.deleteById id).2.deleteById id).1 = false

/-- C6: once `deleteById id` succeeds, `rangeById id id` on the new state
returns the empty list, every `prefixByLast` query (in particular the one
for the deleted record's last name) excludes the deleted position, and a
second `deleteById id` with no intervening insert returns `false`. -/
theorem claim_C6 (e : Engine) (he : Reachable e) (id : Int)
    (hsucc : (e.deleteById id).1 = true) : DeleteQuerySpec e id := by
  cases hfind : e.idIndex.root.findAux id with
  | none =>
    rw [(deleteById_none hfind).1] at hsucc
    exact Bool.noConfusion hsucc
  | some oldIndex =>
    obtain ⟨hfst, hheap, hidroot⟩ := deleteById_some hfind
    obtain ⟨holdLen, -, -⟩ := he.inv.idValid id oldIndex hfind
    have hOrd' : (e.deleteById id).2.idIndex.root.Ordered := by
      rw [hidroot]; exact (Tree.ordered_erase he.inv.idOrd)
    refine ⟨?_, ?_, ?_⟩
    · rw [rangeById_res]
      have hnil : (e.deleteById id).2.idIndex.root.rangeList id id = [] := by
        rw [Tree.rangeList_eq_filter hOrd']
        apply List.filter_eq_nil_iff.2
        intro kv hkv hpred
        simp only [Bool.and_eq_true, decide_eq_true_eq] at hpred
        have hk : kv.1 = id := le_antisymm hpred.2 hpred.1
        have hfa := (Tree.findAux_eq_some_iff hOrd').2 hkv
        rw [hk, hidroot, Tree.findAux_erase he.inv.idOrd, if_pos rfl] at hfa
        exact Option.noConfusion hfa
      rw [hnil]
      rfl
    · intro p hp pre
      obtain rfl : oldIndex = p := Option.some.inj (hfind.symm.trans hp)
      have hdel : (heapGet (e.deleteById id).2.heap oldIndex).deleted = true := by
        rw [hheap, heapGet_markDeleted_self holdLen]
      exact deleted_not_mem_prefixByLast hdel
    · have hfaN : (e.deleteById id).2.idIndex.root.findAux id = none := by
        rw [hidroot, Tree.findAux_erase he.inv.idOrd, if_pos rfl]
      exact (deleteById_none hfaN).1

theorem claim_C6_witness :
    Reachable engOne ∧ (engOne.deleteById 1).1 = true ∧
    DeleteQuerySpec engOne 1 :=
  ⟨engOne_reachable, by decide, claim_C6 engOne engOne_reachable 1 (by decide)⟩

/-! ## Lexicographic facts about the prefix search window -/

theorem prefix_le_self {α : Type} [LinearOrder α] (p t : List α) :
    p ≤ p ++ t := by
  induction p with
  | nil => exact List.nil_le
  | cons a p ih => exact List.cons_le_cons a ih

theorem append_le_append_left {α : Type} [LinearOrder α] {s t : List α}
    (p : List α) (h : s ≤ t) : p ++ s ≤ p ++ t := by
  induction p with
  | nil => exact h
  | cons a p ih => exact List.cons_le_cons a ih

theorem lt_singleton_of_forall_lt {α : Type} [LinearOrder α] {t : List α} {c : α}
    (h : ∀ x ∈ t, x < c) : t < [c] := by
  cases t with
  | nil => exact List.nil_lt_cons c []
  | cons a t => exact List.Lex.rel (h a (List.mem_cons_self a t))

theorem le_singleton_of_forall_lt {α : Type} [LinearOrder α] {t : List α} {c : α}
    (h : ∀ x ∈ t, x < c) : t ≤ [c] :=
  le_of_lt (lt_singleton_of_forall_lt h)

/-- A list between `p` and `p ++ [c]` in lexicographic order extends `p`. -/
theorem startsWith_of_le_le {α : Type} [LinearOrder α] :
    ∀ (p k : List α) (c : α), p ≤ k → k ≤ p ++ [c] → ∃ t, k = p ++ t := by
  intro p
  induction p with
  | nil => exact fun k c _ _ => ⟨k, rfl⟩
  | cons a p ih =>
    intro k c h1 h2
    cases k with
    | nil =>
      rcases le_iff_lt_or_eq.1 h1 with hlt | heq
      · exact absurd hlt (List.Lex.not_nil_right _ _)
      · exact absurd heq (by simp)
    | cons b k =>
      have hab : ¬ b < a := by
        intro hba
        rcases le_iff_lt_or_eq.1 h1 with hlt | heq
        · have hlex : List.Lex (· < ·) (a :: p) (b :: k) := hlt
          cases hlex with
          | rel h => exact absurd (lt_trans h hba) (lt_irrefl a)
          | cons h => exact absurd hba (lt_irrefl a)
        · obtain ⟨rfl, -⟩ := List.cons.injEq .. ▸ heq
          exact absurd hba (lt_irrefl a)
      rcases le_iff_lt_or_eq.1 h2 with hlt | heq
      · have hlex : List.Lex (· < ·) (b :: k) (a :: (p ++ [c])) := hlt
        cases hlex with
        | rel h => exact absurd h hab
        | cons h =>
          have hpk : p ≤ k := by
            rcases le_iff_lt_or_eq.1 h1 with hlt' | heq'
            · have hlex' : List.Lex (· < ·) (a :: p) (a :: k) := hlt'
              cases hlex' with
              | rel h' => exact absurd h' (lt_irrefl a)
              | cons h' => exact le_of_lt h'
            · have : p = k := (List.cons.injEq .. ▸ heq').2
              exact le_of_eq this
          obtain ⟨t, rfl⟩ := ih k c hpk (le_of_lt h)
          exact ⟨t, rfl⟩
      · have : b = a ∧ k = p ++ [c] := by
          constructor
          · exact (List.cons.injEq .. ▸ heq).1
          · exact (List.cons.injEq .. ▸ heq).2
        obtain ⟨rfl, rfl⟩ := this
        exact ⟨[c], rfl⟩

/-- All characters of the lowered name sort strictly before the sentinel
`'\x7b'`; true of every alphabetic last name. -/
def ValidName (s : Name) : Prop :=
  ∀ c ∈ toLower s, c < sentinelChar

/-- All heap records carry sentinel-compatible last names. -/
def AllNamesValid (e : Engine) : Prop :=
  ∀ p, p < e.heap.length → ValidName (heapGet e.heap p).last

/-- `prefixByLast` returns exactly the live records whose lowered last name
extends the lowered prefix. -/
def PrefixSpec (e : Engine) (pre : Name) : Prop :=
  ∀ p, p ∈ (e.prefixByLast pre).1 ↔
    LiveAt e p ∧ ∃ t, toLower (heapGet e.heap p).last = toLower pre ++ t

/-- C4: on any reachable store whose last names are valid (every character
of the lowered name sorts before the `'\x7b'` sentinel — in particular any
alphabetic name such as "Smith" or "SMITHSON"), `prefixByLast pre` returns
exactly the live records whose case-normalized last name begins with the
case-normalized `pre`, by traversing the secondary-index window from
`toLower pre` to `toLower pre ++ ['\x7b']`. -/
theorem claim_C4 (e : Engine) (he : Reachable e) (hv : AllNamesValid e)
    (pre : Name) : PrefixSpec e pre := by
  intro p
  rw [mem_prefixByLast]
  constructor
  · rintro ⟨⟨s, l, hm, hpl⟩, hlive⟩
    rw [Tree.mem_rangeList_iff he.inv.lastOrd] at hm
    obtain ⟨hent, hlo, hhi⟩ := hm
    have hfs := (Tree.findAux_eq_some_iff he.inv.lastOrd).2 hent
    obtain ⟨-, hforall⟩ := he.inv.bucketValid s l hfs
    obtain ⟨h1, -, hkey⟩ := hforall p hpl
    obtain ⟨t, ht⟩ := startsWith_of_le_le (toLower pre) s sentinelChar hlo hhi
    exact ⟨⟨h1, hlive⟩, ⟨t, by rw [hkey, ht]⟩⟩
  · rintro ⟨⟨h1, h2⟩, t, ht⟩
    obtain ⟨l, hfa, hmem⟩ := he.inv.bucketComplete p h1 h2
    refine ⟨⟨toLower (heapGet e.heap p).last, l, ?_, hmem⟩, h2⟩
    rw [Tree.mem_rangeList_iff he.inv.lastOrd]
    refine ⟨(Tree.findAux_eq_some_iff he.inv.lastOrd).1 hfa, ?_, ?_⟩
    · rw [ht]
      exact prefix_le_self _ _
    · rw [ht]
      apply append_le_append_left
      apply le_singleton_of_forall_lt
      intro x hx
      have hxl : x ∈ toLower (heapGet e.heap p).last := by
        rw [ht]
        exact List.mem_append_right _ hx
      exact hv p h1 x hxl

/-- The record "Smith" (id 10). -/
def recSmith : Record := ⟨10, ['S', 'm', 'i', 't', 'h'], [], false⟩

/-- The record "SMITHSON" (id 20). -/
def recSmithson : Record := ⟨20, ['S', 'M', 'I', 'T', 'H', 'S', 'O', 'N'], [], false⟩

/-- The engine holding "Smith" and "SMITHSON". -/
def engSmith : Engine :=
  ((Engine.empty.insertRecord recSmith).2.insertRecord recSmithson).2

theorem engSmith_reachable : Reachable engSmith :=
  Relation.ReflTransGen.tail
    (Relation.ReflTransGen.single (Step.insert Engine.empty recSmith rfl))
    (Step.insert (Engine.empty.insertRecord recSmith).2 recSmithson rfl)

theorem claim_C4_witness :
    Reachable engSmith ∧ AllNamesValid engSmith ∧
    PrefixSpec engSmith ['s', 'm', 'i'] :=
  ⟨engSmith_reachable, by unfold AllNamesValid ValidName; decide,
   claim_C4 engSmith engSmith_reachable
     (by unfold AllNamesValid ValidName; decide) ['s', 'm', 'i']⟩

/-- A record whose last name contains `'~'`, which sorts after the
sentinel. -/
def recTilde : Record := ⟨30, ['s', '~'], [], false⟩

/-- The engine holding only `recTilde`. -/
def engTilde : Engine := (Engine.empty.insertRecord recTilde).2

/-- C4 does not hold for every store state: with last name `"s~"` (whose
second character sorts after the sentinel `'\x7b'`), the live record's
lowered last name begins with the lowered prefix `"s"`, yet
`prefixByLast "s"` misses it, because `"s~"` falls outside the traversed
key window ending at `"s\x7b"`. -/
theorem claim_C4_counterexample :
    (engTilde.prefixByLast ['s']).1 = [] ∧
    0 < engTilde.heap.length ∧
    (heapGet engTilde.heap 0).deleted = false ∧
    toLower (heapGet engTilde.heap 0).last = toLower ['s'] ++ ['~'] := by
  refine ⟨?_, ?_, ?_, ?_⟩ <;> decide

/-- What `prefixByLast` on the empty string returns. -/
def EmptyPrefixSpec (e : Engine) : Prop :=
  (∀ p, LiveAt e p → toLower (heapGet e.heap p).last < [sentinelChar] →
    p ∈ (e.prefixByLast []).1) ∧
  (AllNamesValid e → ∀ p, p ∈ (e.prefixByLast []).1 ↔ LiveAt e p)

/-- C10: `prefixByLast ""` returns every live record whose lowercased last
name sorts lexicographically below the one-character string `'\x7b'`
(ASCII 123); in particular, on a store whose last names are alphabetic it
returns exactly the live records. -/
theorem claim_C10 (e : Engine) (he : Reachable e) : EmptyPrefixSpec e := by
  have hmain : ∀ p, LiveAt e p →
      toLower (heapGet e.heap p).last < [sentinelChar] →
      p ∈ (e.prefixByLast []).1 := by
    intro p hl hlt
    rw [mem_prefixByLast]
    obtain ⟨l, hfa, hmem⟩ := he.inv.bucketComplete p hl.1 hl.2
    refine ⟨⟨toLower (heapGet e.heap p).last, l, ?_, hmem⟩, hl.2⟩
    rw [Tree.mem_rangeList_iff he.inv.lastOrd]
    exact ⟨(Tree.findAux_eq_some_iff he.inv.lastOrd).1 hfa, List.nil_le,
      le_of_lt hlt⟩
  refine ⟨hmain, ?_⟩
  intro hv p
  constructor
  · intro hmem
    rw [mem_prefixByLast] at hmem
    obtain ⟨⟨s, l, hm, hpl⟩, hlive⟩ := hmem
    rw [Tree.mem_rangeList_iff he.inv.lastOrd] at hm
    have hfs := (Tree.findAux_eq_some_iff he.inv.lastOrd).2 hm.1
    obtain ⟨-, hforall⟩ := he.inv.bucketValid s l hfs
    obtain ⟨h1, -, -⟩ := hforall p hpl
    exact ⟨h1, hlive⟩
  · intro hl
    exact hmain p hl (lt_singleton_of_forall_lt (hv p hl.1))

theorem claim_C10_witness :
    Reachable engSmith ∧ EmptyPrefixSpec engSmith :=
  ⟨engSmith_reachable, claim_C10 engSmith engSmith_reachable⟩

end MiniDB
